import Mathlib

/-!
# Verification of the dloc-core localization container codec

A shallow embedding of the `dloc-core` Rust crate: the binary chunk codec
for the two supported games (HZD and DS), the length-prefixed string
codecs, the EOL token substitution used by the line-list interchange
format, the line-list serializer/deserializer, the in-memory resource
update operations, and the magic-number game auto-detection.

Byte streams are modelled as `List Nat` with every byte below 256 (the
writers only emit values reduced mod 256); machine integers are `Nat`
with explicit `% 2^w` where the source casts.  Fallible operations
return `Option`; operations that mutate state in place are modelled as
functions returning the new state together with an optional error, so
that partially-applied mutations at an early `return Err(..)` are
observable exactly as in the source.
-/

namespace DLoc

/-! ## Little-endian integer and raw-byte primitives

These model binrw's little-endian integer reads/writes
(`u16/u32/u64::read_options` / `write_options`) and `Vec<u8>` reads with
a `count` argument. -/

/-- Write `v` as `w` little-endian bytes (the value is implicitly reduced
mod `2^(8*w)`, matching an `as uN` cast in Rust). -/
def leBytes : Nat → Nat → List Nat
  | 0, _ => []
  | w + 1, v => (v % 256) :: leBytes w (v / 256)

/-- Read a `w`-byte little-endian integer; fails on end of stream. -/
def readLE : Nat → List Nat → Option (Nat × List Nat)
  | 0, bs => some (0, bs)
  | _ + 1, [] => none
  | w + 1, b :: bs =>
    match readLE w bs with
    | none => none
    | some (v, rest) => some (b + 256 * v, rest)

/-- Read exactly `n` raw bytes; fails on end of stream. -/
def readN : Nat → List Nat → Option (List Nat × List Nat)
  | 0, bs => some ([], bs)
  | _ + 1, [] => none
  | n + 1, b :: bs =>
    match readN n bs with
    | none => none
    | some (xs, rest) => some (b :: xs, rest)

theorem leBytes_length (w v : Nat) : (leBytes w v).length = w := by
  induction w generalizing v with
  | zero => rfl
  | succ w ih => simp [leBytes, ih]

theorem mod_split256 (v M : Nat) :
    v % (256 * M) = 256 * (v / 256 % M) + v % 256 := by
  conv_lhs => rw [← Nat.div_add_mod (v % (256 * M)) 256]
  rw [Nat.mod_mul_right_div_self, Nat.mod_mod_of_dvd _ ⟨M, rfl⟩]

theorem leBytes_mod (w v : Nat) : leBytes w (v % 2 ^ (8 * w)) = leBytes w v := by
  induction w generalizing v with
  | zero => rfl
  | succ w ih =>
    have h8 : 2 ^ (8 * (w + 1)) = 256 * 2 ^ (8 * w) := by ring
    simp only [leBytes, h8, Nat.mod_mul_right_div_self, ih]
    congr 1
    exact Nat.mod_mod_of_dvd _ ⟨2 ^ (8 * w), rfl⟩

theorem readLE_leBytes (w v : Nat) (rest : List Nat) :
    readLE w (leBytes w v ++ rest) = some (v % 2 ^ (8 * w), rest) := by
  induction w generalizing v with
  | zero => simp [leBytes, readLE, Nat.mod_one]
  | succ w ih =>
    have h8 : 2 ^ (8 * (w + 1)) = 256 * 2 ^ (8 * w) := by ring
    simp only [leBytes, List.cons_append, readLE, List.append_eq, ih, h8]
    rw [mod_split256, Nat.add_comm]

theorem readN_append (xs rest : List Nat) :
    readN xs.length (xs ++ rest) = some (xs, rest) := by
  induction xs with
  | nil => simp [readN]
  | cons b xs ih => simp [readN, ih]

/-- Successful `readLE` consumes exactly `w` bytes. -/
theorem readLE_length {w : Nat} {bs rest : List Nat} {v : Nat}
    (h : readLE w bs = some (v, rest)) : rest.length + w = bs.length := by
  induction w generalizing bs v with
  | zero =>
    simp only [readLE, Option.some.injEq, Prod.mk.injEq] at h
    simp [h.2]
  | succ w ih =>
    match bs with
    | [] => simp [readLE] at h
    | b :: bs =>
      simp only [readLE] at h
      match hr : readLE w bs with
      | none => rw [hr] at h; simp at h
      | some (v', rest') =>
        rw [hr] at h
        simp only [Option.some.injEq, Prod.mk.injEq] at h
        obtain ⟨-, h2⟩ := h
        subst h2
        have := ih hr
        simp only [List.length_cons]
        omega

/-- Successful `readN` consumes exactly `n` bytes. -/
theorem readN_length {n : Nat} {bs rest xs : List Nat}
    (h : readN n bs = some (xs, rest)) : rest.length + n = bs.length := by
  induction n generalizing bs xs with
  | zero =>
    simp only [readN, Option.some.injEq, Prod.mk.injEq] at h
    simp [h.2]
  | succ n ih =>
    match bs with
    | [] => simp [readN] at h
    | b :: bs =>
      simp only [readN] at h
      match hr : readN n bs with
      | none => rw [hr] at h; simp at h
      | some (xs', rest') =>
        rw [hr] at h
        simp only [Option.some.injEq, Prod.mk.injEq] at h
        obtain ⟨-, h2⟩ := h
        subst h2
        have := ih hr
        simp only [List.length_cons]
        omega

/-! ## EOL token substitution (`EofReplacor for String`, utils/mod.rs)

Strings are modelled as `List Char`.  The source peeks at the three bytes
following `<` with `str::get(0..3)`; since the three token codes are pure
ASCII, a byte-slice comparison against them succeeds exactly when the
next three characters are those ASCII characters, so the character-level
model below is faithful. -/

def cfTok : List Char := ['<', 'c', 'f', '>']

def lfTok : List Char := ['<', 'l', 'f', '>']

def crTok : List Char := ['<', 'c', 'r', '>']

/-- `t` is a leading run of `s`. -/
def startsWith : List Char → List Char → Bool
  | [], _ => true
  | _ :: _, [] => false
  | a :: t, b :: s => a = b && startsWith t s

/-- `t` occurs contiguously inside `s` (models `str::contains(&str)`). -/
def hasSub (t : List Char) : List Char → Bool
  | [] => t.isEmpty
  | c :: rest => startsWith t (c :: rest) || hasSub t rest

/-- The scanning loop of `replace_eol` (utils/mod.rs lines 61-81). -/
def replaceEolScan : List Char → List Char
  | [] => []
  | c :: rest =>
    if c = '\r' then
      match rest with
      | c2 :: rest2 =>
        if c2 = '\n' then '<' :: 'c' :: 'f' :: '>' :: replaceEolScan rest2
        else '<' :: 'c' :: 'r' :: '>' :: replaceEolScan (c2 :: rest2)
      | [] => ['<', 'c', 'r', '>']
    else if c = '\n' then '<' :: 'l' :: 'f' :: '>' :: replaceEolScan rest
    else c :: replaceEolScan rest

/-- `EofReplacor::replace_eol`, including the source's early `return self`
fast path when the string holds no `\r`/`\n`. -/
def replace_eol (s : List Char) : List Char :=
  if s.contains '\r' || s.contains '\n' then replaceEolScan s else s

/-- The scanning loop of `replace_eol_back` (utils/mod.rs lines 89-111):
on `<` it peeks at the next three characters, consuming them only when
they spell one of the three codes, otherwise emitting the literal `<`. -/
def replaceEolBackScan : List Char → List Char
  | [] => []
  | c :: rest =>
    if c = '<' then
      match rest with
      | a :: b :: d :: rest2 =>
        if a = 'c' ∧ b = 'f' ∧ d = '>' then '\r' :: '\n' :: replaceEolBackScan rest2
        else if a = 'l' ∧ b = 'f' ∧ d = '>' then '\n' :: replaceEolBackScan rest2
        else if a = 'c' ∧ b = 'r' ∧ d = '>' then '\r' :: replaceEolBackScan rest2
        else c :: replaceEolBackScan (a :: b :: d :: rest2)
      | [] => [c]
      | [a] => c :: replaceEolBackScan [a]
      | [a, b] => c :: replaceEolBackScan [a, b]
    else c :: replaceEolBackScan rest

/-- `EofReplacor::replace_eol_back`, including the early `return self`
fast path when none of the three tokens occurs in the string. -/
def replace_eol_back (s : List Char) : List Char :=
  if hasSub cfTok s || hasSub lfTok s || hasSub crTok s then replaceEolBackScan s
  else s


/-! Equation lemmas for the two scans, one per execution path. -/

theorem scan_crlf (t : List Char) :
    replaceEolScan ('\r' :: '\n' :: t) = '<' :: 'c' :: 'f' :: '>' :: replaceEolScan t := by
  rw [replaceEolScan.eq_def]
  dsimp only
  rw [if_pos rfl, if_pos rfl]

theorem scan_cr_nil : replaceEolScan ['\r'] = ['<', 'c', 'r', '>'] := by
  rw [replaceEolScan.eq_def]
  dsimp only
  rw [if_pos rfl]

theorem scan_cr_cons (c2 : Char) (t : List Char) (h : ¬c2 = '\n') :
    replaceEolScan ('\r' :: c2 :: t) = '<' :: 'c' :: 'r' :: '>' :: replaceEolScan (c2 :: t) := by
  rw [replaceEolScan.eq_def]
  dsimp only
  rw [if_pos rfl, if_neg h]

theorem scan_lf (t : List Char) :
    replaceEolScan ('\n' :: t) = '<' :: 'l' :: 'f' :: '>' :: replaceEolScan t := by
  rw [replaceEolScan.eq_def]
  dsimp only
  rw [if_neg (by decide : ¬('\n' = '\r')), if_pos rfl]

theorem scan_other (c : Char) (t : List Char) (h1 : ¬c = '\r') (h2 : ¬c = '\n') :
    replaceEolScan (c :: t) = c :: replaceEolScan t := by
  rw [replaceEolScan.eq_def]
  dsimp only
  rw [if_neg h1, if_neg h2]

theorem back_cf (t : List Char) :
    replaceEolBackScan ('<' :: 'c' :: 'f' :: '>' :: t) = '\r' :: '\n' :: replaceEolBackScan t := by
  rw [replaceEolBackScan.eq_def]
  dsimp only
  rw [if_pos rfl, if_pos (by refine ⟨rfl, rfl, rfl⟩)]

theorem back_lf (t : List Char) :
    replaceEolBackScan ('<' :: 'l' :: 'f' :: '>' :: t) = '\n' :: replaceEolBackScan t := by
  rw [replaceEolBackScan.eq_def]
  dsimp only
  rw [if_pos rfl, if_neg (by decide), if_pos (by refine ⟨rfl, rfl, rfl⟩)]

theorem back_cr (t : List Char) :
    replaceEolBackScan ('<' :: 'c' :: 'r' :: '>' :: t) = '\r' :: replaceEolBackScan t := by
  rw [replaceEolBackScan.eq_def]
  dsimp only
  rw [if_pos rfl, if_neg (by decide), if_neg (by decide),
    if_pos (by refine ⟨rfl, rfl, rfl⟩)]

theorem back_other (c : Char) (t : List Char) (h : ¬c = '<') :
    replaceEolBackScan (c :: t) = c :: replaceEolBackScan t := by
  rw [replaceEolBackScan.eq_def]
  dsimp only
  rw [if_neg h]

theorem back_nomatch (a b d : Char) (t : List Char)
    (h1 : ¬(a = 'c' ∧ b = 'f' ∧ d = '>')) (h2 : ¬(a = 'l' ∧ b = 'f' ∧ d = '>'))
    (h3 : ¬(a = 'c' ∧ b = 'r' ∧ d = '>')) :
    replaceEolBackScan ('<' :: a :: b :: d :: t) =
      '<' :: replaceEolBackScan (a :: b :: d :: t) := by
  rw [replaceEolBackScan.eq_def]
  dsimp only
  rw [if_pos rfl, if_neg h1, if_neg h2, if_neg h3]

theorem back_short0 : replaceEolBackScan ['<'] = ['<'] := by
  rw [replaceEolBackScan.eq_def]
  dsimp only
  rw [if_pos rfl]

theorem back_short1 (a : Char) :
    replaceEolBackScan ['<', a] = '<' :: replaceEolBackScan [a] := by
  rw [replaceEolBackScan.eq_def]
  dsimp only
  rw [if_pos rfl]

theorem back_short2 (a b : Char) :
    replaceEolBackScan ['<', a, b] = '<' :: replaceEolBackScan [a, b] := by
  rw [replaceEolBackScan.eq_def]
  dsimp only
  rw [if_pos rfl]

/-- The fast path of `replace_eol` agrees with the scan. -/
theorem replaceEolScan_id {s : List Char} (hr : '\r' ∉ s) (hn : '\n' ∉ s) :
    replaceEolScan s = s := by
  induction s with
  | nil => rfl
  | cons c rest ih =>
    have hcr : ¬c = '\r' := fun h => hr (h ▸ List.mem_cons_self c rest)
    have hcn : ¬c = '\n' := fun h => hn (h ▸ List.mem_cons_self c rest)
    have hr' : '\r' ∉ rest := fun h => hr (List.mem_cons_of_mem _ h)
    have hn' : '\n' ∉ rest := fun h => hn (List.mem_cons_of_mem _ h)
    rw [scan_other c rest hcr hcn, ih hr' hn']

theorem replace_eol_eq_scan (s : List Char) : replace_eol s = replaceEolScan s := by
  unfold replace_eol
  by_cases h : (s.contains '\r' || s.contains '\n') = true
  · rw [if_pos h]
  · rw [if_neg h]
    simp at h
    exact (replaceEolScan_id h.1 h.2).symm

theorem hasSub_tail {t : List Char} {c : Char} {s : List Char}
    (h : hasSub t (c :: s) = false) : hasSub t s = false := by
  simp only [hasSub, Bool.or_eq_false_iff] at h
  exact h.2

theorem startsWith_false_of_hasSub_false {t s : List Char}
    (h : hasSub t s = false) (hne : t ≠ []) : startsWith t s = false := by
  match s with
  | [] =>
    match t with
    | [] => exact absurd rfl hne
    | a :: t' => rfl
  | c :: rest =>
    simp only [hasSub, Bool.or_eq_false_iff] at h
    exact h.1

/-- The fast path of `replace_eol_back` agrees with the scan. -/
theorem replaceEolBackScan_id {s : List Char} (hcf : hasSub cfTok s = false)
    (hlf : hasSub lfTok s = false) (hcr : hasSub crTok s = false) :
    replaceEolBackScan s = s := by
  induction s with
  | nil => rfl
  | cons c rest ih =>
    have ih' := ih (hasSub_tail hcf) (hasSub_tail hlf) (hasSub_tail hcr)
    by_cases hc : c = '<'
    · subst hc
      have scf := startsWith_false_of_hasSub_false hcf (by decide)
      have slf := startsWith_false_of_hasSub_false hlf (by decide)
      have scr := startsWith_false_of_hasSub_false hcr (by decide)
      match rest with
      | [] => rfl
      | [a] => rw [back_short1, ih']
      | [a, b] => rw [back_short2, ih']
      | a :: b :: d :: rest2 =>
        have h1 : ¬(a = 'c' ∧ b = 'f' ∧ d = '>') := by
          rintro ⟨rfl, rfl, rfl⟩
          simp [startsWith, cfTok] at scf
        have h2 : ¬(a = 'l' ∧ b = 'f' ∧ d = '>') := by
          rintro ⟨rfl, rfl, rfl⟩
          simp [startsWith, lfTok] at slf
        have h3 : ¬(a = 'c' ∧ b = 'r' ∧ d = '>') := by
          rintro ⟨rfl, rfl, rfl⟩
          simp [startsWith, crTok] at scr
        rw [back_nomatch a b d rest2 h1 h2 h3, ih']
    · rw [back_other c rest hc, ih']

theorem replace_eol_back_eq_scan (s : List Char) :
    replace_eol_back s = replaceEolBackScan s := by
  unfold replace_eol_back
  by_cases h : (hasSub cfTok s || hasSub lfTok s || hasSub crTok s) = true
  · rw [if_pos h]
  · rw [if_neg h]
    simp only [Bool.or_eq_true, not_or, Bool.not_eq_true] at h
    exact (replaceEolBackScan_id h.1.1 h.1.2 h.2).symm

/-- The scan's output never contains a carriage return or line feed. -/
theorem replaceEolScan_no_eol (n : Nat) :
    ∀ s : List Char, s.length ≤ n →
      '\r' ∉ replaceEolScan s ∧ '\n' ∉ replaceEolScan s := by
  induction n with
  | zero =>
    intro s hs
    have : s = [] := List.length_eq_zero.mp (Nat.le_zero.mp hs)
    subst this
    simp [replaceEolScan]
  | succ n ih =>
    intro s hs
    match s with
    | [] => simp [replaceEolScan]
    | c :: rest =>
      simp only [List.length_cons, Nat.succ_le_succ_iff] at hs
      by_cases hc : c = '\r'
      · subst hc
        match rest with
        | [] => rw [scan_cr_nil]; decide
        | c2 :: rest2 =>
          by_cases h2 : c2 = '\n'
          · subst h2
            have hr := ih rest2 (by simp at hs ⊢; omega)
            rw [scan_crlf]
            simp only [List.mem_cons, not_or]
            exact ⟨⟨by decide, by decide, by decide, by decide, hr.1⟩,
              ⟨by decide, by decide, by decide, by decide, hr.2⟩⟩
          · have hr := ih (c2 :: rest2) hs
            rw [scan_cr_cons c2 rest2 h2]
            simp only [List.mem_cons, not_or]
            exact ⟨⟨by decide, by decide, by decide, by decide, hr.1⟩,
              ⟨by decide, by decide, by decide, by decide, hr.2⟩⟩
      · by_cases hn : c = '\n'
        · subst hn
          have hr := ih rest hs
          rw [scan_lf]
          simp only [List.mem_cons, not_or]
          exact ⟨⟨by decide, by decide, by decide, by decide, hr.1⟩,
            ⟨by decide, by decide, by decide, by decide, hr.2⟩⟩
        · have hr := ih rest hs
          rw [scan_other c rest hc hn]
          simp only [List.mem_cons, not_or]
          exact ⟨⟨fun h => hc h.symm, hr.1⟩, ⟨fun h => hn h.symm, hr.2⟩⟩

/-- Inversion: a scan output starting with an ordinary character (not `<`,
`\r`, `\n`) can only come from an input starting with that character. -/
theorem replaceEolScan_cons_inv {u : List Char} {x : Char} {v : List Char}
    (hlt : x ≠ '<') (_hr : x ≠ '\r') (_hn : x ≠ '\n')
    (h : replaceEolScan u = x :: v) :
    ∃ w, u = x :: w ∧ replaceEolScan w = v := by
  match u with
  | [] => exact absurd h (by simp [replaceEolScan])
  | c :: rest =>
    by_cases hc : c = '\r'
    · subst hc
      exfalso
      match rest with
      | [] =>
        rw [scan_cr_nil] at h
        exact hlt (List.cons.inj h).1.symm
      | c2 :: rest2 =>
        by_cases h2 : c2 = '\n'
        · subst h2
          rw [scan_crlf] at h
          exact hlt (List.cons.inj h).1.symm
        · rw [scan_cr_cons c2 rest2 h2] at h
          exact hlt (List.cons.inj h).1.symm
    · by_cases hcn : c = '\n'
      · subst hcn
        rw [scan_lf] at h
        exact absurd (List.cons.inj h).1.symm hlt
      · rw [scan_other c rest hc hcn] at h
        obtain ⟨h1, h2⟩ := List.cons.inj h
        exact ⟨rest, by rw [h1], h2⟩

theorem replaceEolScan_eq_nil {u : List Char} (h : replaceEolScan u = []) :
    u = [] := by
  match u with
  | [] => rfl
  | c :: rest =>
    exfalso
    by_cases hc : c = '\r'
    · subst hc
      match rest with
      | [] => rw [scan_cr_nil] at h; exact List.cons_ne_nil _ _ h
      | c2 :: rest2 =>
        by_cases h2 : c2 = '\n'
        · subst h2; rw [scan_crlf] at h; exact List.cons_ne_nil _ _ h
        · rw [scan_cr_cons c2 rest2 h2] at h; exact List.cons_ne_nil _ _ h
    · by_cases hn : c = '\n'
      · subst hn; rw [scan_lf] at h; exact List.cons_ne_nil _ _ h
      · rw [scan_other c rest hc hn] at h; exact List.cons_ne_nil _ _ h

/-- Key inversion used in the `<` case of the round-trip proof: if the scan
output continues with three ordinary characters, the input did too. -/
theorem replaceEolScan_three_inv {u : List Char} {x y z : Char} {v : List Char}
    (hx : x ≠ '<' ∧ x ≠ '\r' ∧ x ≠ '\n') (hy : y ≠ '<' ∧ y ≠ '\r' ∧ y ≠ '\n')
    (hz : z ≠ '<' ∧ z ≠ '\r' ∧ z ≠ '\n')
    (h : replaceEolScan u = x :: y :: z :: v) :
    ∃ w, u = x :: y :: z :: w := by
  obtain ⟨w1, rfl, h1⟩ := replaceEolScan_cons_inv hx.1 hx.2.1 hx.2.2 h
  obtain ⟨w2, rfl, h2⟩ := replaceEolScan_cons_inv hy.1 hy.2.1 hy.2.2 h1
  obtain ⟨w3, rfl, _⟩ := replaceEolScan_cons_inv hz.1 hz.2.1 hz.2.2 h2
  exact ⟨w3, rfl⟩

/-- Round trip of the two scans on token-free input, by strong induction on
the length. -/
theorem replaceEolBackScan_scan (n : Nat) :
    ∀ s : List Char, s.length ≤ n →
      hasSub cfTok s = false → hasSub lfTok s = false → hasSub crTok s = false →
      replaceEolBackScan (replaceEolScan s) = s := by
  induction n with
  | zero =>
    intro s hs _ _ _
    have : s = [] := List.length_eq_zero.mp (Nat.le_zero.mp hs)
    subst this
    rfl
  | succ n ih =>
    intro s hs hcf hlf hcr
    match s with
    | [] => rfl
    | c :: rest =>
      simp only [List.length_cons, Nat.succ_le_succ_iff] at hs
      have hcf' := hasSub_tail hcf
      have hlf' := hasSub_tail hlf
      have hcr' := hasSub_tail hcr
      by_cases hc : c = '\r'
      · subst hc
        match rest with
        | [] => decide
        | c2 :: rest2 =>
          by_cases h2 : c2 = '\n'
          · subst h2
            have hlen2 : rest2.length ≤ n := by simp at hs; omega
            have ihr := ih rest2 hlen2 (hasSub_tail hcf') (hasSub_tail hlf')
              (hasSub_tail hcr')
            rw [scan_crlf, back_cf, ihr]
          · have ihr := ih (c2 :: rest2) hs hcf' hlf' hcr'
            rw [scan_cr_cons c2 rest2 h2, back_cr, ihr]
      · by_cases hn : c = '\n'
        · subst hn
          have ihr := ih rest hs hcf' hlf' hcr'
          rw [scan_lf, back_lf, ihr]
        · have ihr := ih rest hs hcf' hlf' hcr'
          rw [scan_other c rest hc hn]
          by_cases hlt : c = '<'
          · subst hlt
            have scf := startsWith_false_of_hasSub_false hcf (by decide)
            have slf := startsWith_false_of_hasSub_false hlf (by decide)
            have scr := startsWith_false_of_hasSub_false hcr (by decide)
            match hm : replaceEolScan rest with
            | [] =>
              rw [replaceEolScan_eq_nil hm]
              decide
            | [a] =>
              rw [back_short1, ← hm, ihr]
            | [a, b] =>
              rw [back_short2, ← hm, ihr]
            | a :: b :: d :: rest2 =>
              have h1 : ¬(a = 'c' ∧ b = 'f' ∧ d = '>') := by
                rintro ⟨rfl, rfl, rfl⟩
                obtain ⟨w, rfl⟩ := replaceEolScan_three_inv
                  (by decide) (by decide) (by decide) hm
                simp [startsWith, cfTok] at scf
              have h2 : ¬(a = 'l' ∧ b = 'f' ∧ d = '>') := by
                rintro ⟨rfl, rfl, rfl⟩
                obtain ⟨w, rfl⟩ := replaceEolScan_three_inv
                  (by decide) (by decide) (by decide) hm
                simp [startsWith, lfTok] at slf
              have h3 : ¬(a = 'c' ∧ b = 'r' ∧ d = '>') := by
                rintro ⟨rfl, rfl, rfl⟩
                obtain ⟨w, rfl⟩ := replaceEolScan_three_inv
                  (by decide) (by decide) (by decide) hm
                simp [startsWith, crTok] at scr
              rw [back_nomatch a b d rest2 h1 h2 h3, ← hm, ihr]
          · rw [back_other c _ hlt, ihr]

/-- C2, counterexample: the string consisting of the literal four characters
`<lf>` (which contains no `\r`/`\n`, so escaping leaves it unchanged) is
decoded to a line feed by `replace_eol_back`, so the round trip is not the
identity on it. -/
theorem replace_eol_not_inverse_on_token :
    replace_eol_back (replace_eol ['<', 'l', 'f', '>']) ≠ ['<', 'l', 'f', '>'] := by
  decide

/-- C2 (amended): for every string containing none of the literal token
substrings `<lf>`, `<cr>`, `<cf>`, decoding inverts encoding exactly; and
(independently of that hypothesis) the encoded string never contains a
`\r` or `\n` character. -/
theorem replace_eol_roundtrip (s : List Char)
    (hcf : hasSub cfTok s = false) (hlf : hasSub lfTok s = false)
    (hcr : hasSub crTok s = false) :
    replace_eol_back (replace_eol s) = s ∧
      '\r' ∉ replace_eol s ∧ '\n' ∉ replace_eol s := by
  rw [replace_eol_eq_scan, replace_eol_back_eq_scan]
  refine ⟨replaceEolBackScan_scan s.length s le_rfl hcf hlf hcr, ?_⟩
  exact replaceEolScan_no_eol s.length s le_rfl

/-- Witness for `replace_eol_roundtrip` at a concrete string holding a
literal `<` and both kinds of line breaks. -/
theorem replace_eol_roundtrip_witness :
    replace_eol_back (replace_eol ['H', 'i', '<', '\n', 't', '\r', '\n']) =
        ['H', 'i', '<', '\n', 't', '\r', '\n'] ∧
      '\r' ∉ replace_eol ['H', 'i', '<', '\n', 't', '\r', '\n'] ∧
      '\n' ∉ replace_eol ['H', 'i', '<', '\n', 't', '\r', '\n'] :=
  replace_eol_roundtrip ['H', 'i', '<', '\n', 't', '\r', '\n']
    (by decide) (by decide) (by decide)

/-! ## String value codecs (utils/types/u8string.rs, u16string.rs)

`U8String` stores the decoded Rust `String` of a narrow-codec field; since
`String::from_utf8` keeps exactly the bytes it was given, the model stores
those UTF-8 bytes.  `U16String` stores the UTF-16 code units of a
wide-codec field: `String::from_utf16` fails exactly on ill-formed UTF-16
and `encode_utf16` of the decoded string restores the original code units,
so storing the units (validated on read) is a faithful model of the
decode/encode pair. -/

/-- A UTF-8 continuation byte (`0x80..=0xBF`). -/
def isCont (b : Nat) : Bool := 0x80 ≤ b && b ≤ 0xBF

/-- Well-formed UTF-8 per RFC 3629 (shortest forms only, no surrogates):
models `String::from_utf8(buf).is_ok()`. -/
def isValidUtf8 : List Nat → Bool
  | [] => true
  | b :: bs =>
    if b ≤ 0x7F then isValidUtf8 bs
    else if 0xC2 ≤ b && b ≤ 0xDF then
      match bs with
      | b1 :: bs1 => isCont b1 && isValidUtf8 bs1
      | [] => false
    else if b = 0xE0 then
      match bs with
      | b1 :: b2 :: bs2 => (0xA0 ≤ b1 && b1 ≤ 0xBF) && isCont b2 && isValidUtf8 bs2
      | [_] => false
      | [] => false
    else if (0xE1 ≤ b && b ≤ 0xEC) || b = 0xEE || b = 0xEF then
      match bs with
      | b1 :: b2 :: bs2 => isCont b1 && isCont b2 && isValidUtf8 bs2
      | [_] => false
      | [] => false
    else if b = 0xED then
      match bs with
      | b1 :: b2 :: bs2 => (0x80 ≤ b1 && b1 ≤ 0x9F) && isCont b2 && isValidUtf8 bs2
      | [_] => false
      | [] => false
    else if b = 0xF0 then
      match bs with
      | b1 :: b2 :: b3 :: bs3 =>
        (0x90 ≤ b1 && b1 ≤ 0xBF) && isCont b2 && isCont b3 && isValidUtf8 bs3
      | [_, _] => false
      | [_] => false
      | [] => false
    else if 0xF1 ≤ b && b ≤ 0xF3 then
      match bs with
      | b1 :: b2 :: b3 :: bs3 => isCont b1 && isCont b2 && isCont b3 && isValidUtf8 bs3
      | [_, _] => false
      | [_] => false
      | [] => false
    else if b = 0xF4 then
      match bs with
      | b1 :: b2 :: b3 :: bs3 =>
        (0x80 ≤ b1 && b1 ≤ 0x8F) && isCont b2 && isCont b3 && isValidUtf8 bs3
      | [_, _] => false
      | [_] => false
      | [] => false
    else false

/-- Well-formed UTF-16 (every high surrogate is followed by a low
surrogate, no stray low surrogate): models `String::from_utf16(&v).is_ok()`. -/
def isValidUtf16 : List Nat → Bool
  | [] => true
  | u :: us =>
    if u < 0xD800 || 0xE000 ≤ u then isValidUtf16 us
    else if u ≤ 0xDBFF then
      match us with
      | u2 :: us2 => (0xDC00 ≤ u2 && u2 ≤ 0xDFFF) && isValidUtf16 us2
      | [] => false
    else false

/-- Narrow string codec: 16-bit length prefix + UTF-8 bytes. -/
structure U8String where
  bytes : List Nat
deriving DecidableEq

/-- Wide string codec: 32-bit length prefix + UTF-16 code units
(the prefix counts code units, not bytes). -/
structure U16String where
  units : List Nat
deriving DecidableEq

/-- `U8String::read_options`: `u16` length, then that many bytes, which
must form valid UTF-8. -/
def U8String.read (bs : List Nat) : Option (U8String × List Nat) :=
  match readLE 2 bs with
  | none => none
  | some (len, bs1) =>
    match readN len bs1 with
    | none => none
    | some (buf, bs2) => if isValidUtf8 buf then some (⟨buf⟩, bs2) else none

/-- `U8String::write_options`: an empty string writes only the zero
prefix; otherwise the byte length is written `as u16` followed by the
bytes. -/
def U8String.write (s : U8String) : List Nat :=
  if s.bytes.isEmpty then leBytes 2 0
  else leBytes 2 s.bytes.length ++ s.bytes

/-- `U8String::full_size`: `size_of::<u16>() + self.len()`. -/
def U8String.full_size (s : U8String) : Nat := 2 + s.bytes.length

/-- Read `n` consecutive `u16` values (`Vec<u16>::read_options` with
`count`). -/
def readU16s : Nat → List Nat → Option (List Nat × List Nat)
  | 0, bs => some ([], bs)
  | n + 1, bs =>
    match readLE 2 bs with
    | none => none
    | some (u, bs1) =>
      match readU16s n bs1 with
      | none => none
      | some (us, bs2) => some (u :: us, bs2)

/-- Serialize a list of `u16` values little-endian. -/
def writeU16s : List Nat → List Nat
  | [] => []
  | u :: us => leBytes 2 u ++ writeU16s us

/-- `U16String::read_options`: `u32` length, that many `u16` values,
which must form valid UTF-16. -/
def U16String.read (bs : List Nat) : Option (U16String × List Nat) :=
  match readLE 4 bs with
  | none => none
  | some (len, bs1) =>
    match readU16s len bs1 with
    | none => none
    | some (us, bs2) => if isValidUtf16 us then some (⟨us⟩, bs2) else none

/-- `U16String::write_options`: an empty string writes only the zero
prefix; otherwise the code-unit count is written `as u32` followed by the
units. -/
def U16String.write (s : U16String) : List Nat :=
  if s.units.isEmpty then leBytes 4 0
  else leBytes 4 s.units.length ++ writeU16s s.units

/-- `U16String::u16_len`. -/
def U16String.u16_len (s : U16String) : Nat := s.units.length

/-- `U16String::full_size`: `size_of::<u32>() + u16_len * size_of::<u16>()`. -/
def U16String.full_size (s : U16String) : Nat := 4 + 2 * s.units.length

theorem u8string_write_length (s : U8String) :
    (U8String.write s).length = s.full_size := by
  unfold U8String.write U8String.full_size
  by_cases h : s.bytes.isEmpty
  · rw [if_pos h, List.isEmpty_iff.mp h]
    simp [leBytes_length]
  · rw [if_neg h]
    simp [leBytes_length]

theorem writeU16s_length (us : List Nat) : (writeU16s us).length = 2 * us.length := by
  induction us with
  | nil => rfl
  | cons u us ih => simp [writeU16s, leBytes_length, ih]; omega

theorem u16string_write_length (s : U16String) :
    (U16String.write s).length = s.full_size := by
  unfold U16String.write U16String.full_size
  by_cases h : s.units.isEmpty
  · rw [if_pos h, List.isEmpty_iff.mp h]
    simp [leBytes_length]
  · rw [if_neg h]
    simp [leBytes_length, writeU16s_length]

/-- `U8String.write` always emits the mod-`2^16` length prefix followed by
the raw bytes (the empty-string special case in the source produces the
same bytes as the general formula). -/
theorem U8String.write_eq (s : U8String) :
    U8String.write s = leBytes 2 (s.bytes.length % 2 ^ 16) ++ s.bytes := by
  have hmod : leBytes 2 (s.bytes.length % 2 ^ 16) = leBytes 2 s.bytes.length := by
    have := leBytes_mod 2 s.bytes.length
    simpa using this
  rw [hmod]
  unfold U8String.write
  by_cases h : s.bytes.isEmpty
  · rw [if_pos h, List.isEmpty_iff.mp h]
    simp
  · rw [if_neg h]

/-- Round trip of the narrow codec for strings whose byte length fits the
16-bit prefix. -/
theorem u8string_read_write (s : U8String) (rest : List Nat)
    (hlen : s.bytes.length < 2 ^ 16) (hval : isValidUtf8 s.bytes = true) :
    U8String.read (U8String.write s ++ rest) = some (s, rest) := by
  rw [U8String.write_eq, List.append_assoc]
  unfold U8String.read
  rw [readLE_leBytes]
  have h1 : s.bytes.length % 2 ^ 16 % 2 ^ (8 * 2) = s.bytes.length := by
    have h82 : (8 * 2 : Nat) = 16 := by norm_num
    rw [h82, Nat.mod_mod_of_dvd _ dvd_rfl, Nat.mod_eq_of_lt hlen]
  dsimp only
  rw [h1, readN_append]
  dsimp only
  rw [if_pos hval]

theorem readU16s_writeU16s (us : List Nat) (rest : List Nat)
    (h : ∀ u ∈ us, u < 2 ^ 16) :
    readU16s us.length (writeU16s us ++ rest) = some (us, rest) := by
  induction us with
  | nil => simp [writeU16s, readU16s]
  | cons u us ih =>
    have hu : u < 2 ^ 16 := h u (List.mem_cons_self u us)
    have hus : ∀ x ∈ us, x < 2 ^ 16 := fun x hx => h x (List.mem_cons_of_mem _ hx)
    simp only [writeU16s, List.length_cons, readU16s, List.append_assoc, readLE_leBytes]
    have : u % 2 ^ (8 * 2) = u := by
      have h82 : (8 * 2 : Nat) = 16 := by norm_num
      rw [h82]
      exact Nat.mod_eq_of_lt hu
    rw [this, ih hus]

/-- Round trip of the wide codec for valid unit lists that fit the 32-bit
prefix. -/
theorem u16string_read_write (s : U16String) (rest : List Nat)
    (hlen : s.units.length < 2 ^ 32) (hunits : ∀ u ∈ s.units, u < 2 ^ 16)
    (hval : isValidUtf16 s.units = true) :
    U16String.read (U16String.write s ++ rest) = some (s, rest) := by
  have hw : U16String.write s = leBytes 4 s.units.length ++ writeU16s s.units := by
    unfold U16String.write
    by_cases h : s.units.isEmpty
    · rw [if_pos h, List.isEmpty_iff.mp h]
      simp [writeU16s]
    · rw [if_neg h]
  rw [hw, List.append_assoc]
  unfold U16String.read
  rw [readLE_leBytes]
  have h1 : s.units.length % 2 ^ (8 * 4) = s.units.length := by
    have h84 : (8 * 4 : Nat) = 32 := by norm_num
    rw [h84]
    exact Nat.mod_eq_of_lt hlen
  dsimp only
  rw [h1, readU16s_writeU16s s.units rest hunits]
  dsimp only
  rw [if_pos hval]

/-- C10: the narrow string codec's 16-bit length prefix is the UTF-8 byte
length reduced mod `2^16`: it equals the exact byte length for strings
shorter than 65536 bytes, and silently wraps (no longer matching the
body) for longer strings.  The prefix value is expressed by decoding the
emitted bytes with `readLE 2`. -/
theorem u8string_prefix_wraps (s : U8String) :
    U8String.write s = leBytes 2 (s.bytes.length % 2 ^ 16) ++ s.bytes ∧
    (s.bytes.length < 2 ^ 16 →
      readLE 2 (U8String.write s) = some (s.bytes.length, s.bytes)) ∧
    (2 ^ 16 ≤ s.bytes.length →
      readLE 2 (U8String.write s) = some (s.bytes.length % 2 ^ 16, s.bytes) ∧
      s.bytes.length % 2 ^ 16 ≠ s.bytes.length) := by
  have hb : readLE 2 (U8String.write s) = some (s.bytes.length % 2 ^ 16, s.bytes) := by
    rw [U8String.write_eq, readLE_leBytes]
    have h82 : (8 * 2 : Nat) = 16 := by norm_num
    rw [h82, Nat.mod_mod_of_dvd _ dvd_rfl]
  refine ⟨U8String.write_eq s, fun hlt => ?_, fun hge => ⟨hb, fun heq => ?_⟩⟩
  · rw [hb, Nat.mod_eq_of_lt hlt]
  · have : s.bytes.length % 2 ^ 16 < 2 ^ 16 := Nat.mod_lt _ (by norm_num)
    omega

/-- Witness for `u8string_prefix_wraps`: a 2-byte string gets the exact
prefix; a 65536-byte string gets prefix 0. -/
theorem u8string_prefix_wraps_witness :
    ((U8String.mk [104, 105]).bytes.length < 2 ^ 16 ∧
      readLE 2 (U8String.write (U8String.mk [104, 105])) =
        some ((U8String.mk [104, 105]).bytes.length, (U8String.mk [104, 105]).bytes)) ∧
    (2 ^ 16 ≤ (U8String.mk (List.replicate (2 ^ 16) 97)).bytes.length ∧
      (U8String.mk (List.replicate (2 ^ 16) 97)).bytes.length % 2 ^ 16 ≠
        (U8String.mk (List.replicate (2 ^ 16) 97)).bytes.length) := by
  refine ⟨⟨by decide, (u8string_prefix_wraps (U8String.mk [104, 105])).2.1 (by decide)⟩,
    ⟨(List.length_replicate _ _).ge,
      ((u8string_prefix_wraps (U8String.mk (List.replicate (2 ^ 16) 97))).2.2
        (List.length_replicate _ _).ge).2⟩⟩

/-! ## Generic element-sequence parsing (`Vec<T>`/`[T; N]` reads) -/

/-- Read `n` consecutive elements with the element parser `p`
(binrw `count` semantics). -/
def readCount {α : Type} (p : List Nat → Option (α × List Nat)) :
    Nat → List Nat → Option (List α × List Nat)
  | 0, bs => some ([], bs)
  | n + 1, bs =>
    match p bs with
    | none => none
    | some (x, bs1) =>
      match readCount p n bs1 with
      | none => none
      | some (xs, bs2) => some (x :: xs, bs2)

/-- Write elements back to back with the element writer `w`. -/
def writeList {α : Type} (w : α → List Nat) : List α → List Nat
  | [] => []
  | x :: xs => w x ++ writeList w xs

theorem readCount_writeList {α : Type} (p : List Nat → Option (α × List Nat))
    (w : α → List Nat) (xs : List α) (rest : List Nat)
    (h : ∀ x ∈ xs, ∀ r, p (w x ++ r) = some (x, r)) :
    readCount p xs.length (writeList w xs ++ rest) = some (xs, rest) := by
  induction xs with
  | nil => simp [writeList, readCount]
  | cons x xs ih =>
    have hx := h x (List.mem_cons_self x xs)
    have hxs : ∀ y ∈ xs, ∀ r, p (w y ++ r) = some (y, r) :=
      fun y hy => h y (List.mem_cons_of_mem _ hy)
    simp only [writeList, List.length_cons, readCount, List.append_assoc, hx]
    rw [ih hxs]

/-- If every element's serialization is nonempty, a list of `n` elements
serializes to at least `n` bytes. -/
theorem writeList_length_ge {α : Type} (w : α → List Nat) (xs : List α)
    (h : ∀ x ∈ xs, 1 ≤ (w x).length) :
    xs.length ≤ (writeList w xs).length := by
  induction xs with
  | nil => simp [writeList]
  | cons x xs ih =>
    have hx := h x (List.mem_cons_self x xs)
    have ihx := ih fun y hy => h y (List.mem_cons_of_mem _ hy)
    simp only [writeList, List.length_cons, List.length_append]
    omega

/-! ## Horizon Zero Dawn binary structures (games/hzd/structures.rs)

`FixedMap<V>` fields are modelled as plain lists; the wire format of a
`FixedMap` is its `Language::LEN` elements back to back with no framing,
so a parsed map always has exactly `Language.LEN` entries. -/

namespace HZD

/-- The HZD language enumeration has 21 densely numbered codes (0..=20). -/
def LanguageLEN : Nat := 21

def LOCALIZED_MAGIC : Nat := 0xB89A596B420BB2E2

def CUTSCENE_MAGIC : Nat := 0x5A3ECD4ADA693D7F

structure CutsceneStringData where
  string : U16String
  timing : Nat
deriving DecidableEq

def CutsceneStringData.read (bs : List Nat) : Option (CutsceneStringData × List Nat) :=
  match U16String.read bs with
  | none => none
  | some (s, bs1) =>
    match readLE 8 bs1 with
    | none => none
    | some (t, bs2) => some (⟨s, t⟩, bs2)

def CutsceneStringData.write (d : CutsceneStringData) : List Nat :=
  U16String.write d.string ++ leBytes 8 d.timing

structure CutsceneStringGroup where
  lang_code : Nat
  count : Nat
  strings_data : List CutsceneStringData
deriving DecidableEq

/-- `CutsceneStringGroup` read: `lang_code` is asserted `≤ Language::LEN`
(note: `≤`, so the out-of-range code 21 is accepted by the source), then
`count` strings. -/
def CutsceneStringGroup.read (bs : List Nat) : Option (CutsceneStringGroup × List Nat) :=
  match readLE 4 bs with
  | none => none
  | some (lang_code, bs1) =>
    if lang_code ≤ LanguageLEN then
      match readLE 4 bs1 with
      | none => none
      | some (count, bs2) =>
        match readCount CutsceneStringData.read count bs2 with
        | none => none
        | some (sd, bs3) => some (⟨lang_code, count, sd⟩, bs3)
    else none

def CutsceneStringGroup.write (g : CutsceneStringGroup) : List Nat :=
  leBytes 4 g.lang_code ++ leBytes 4 g.count ++
    writeList CutsceneStringData.write g.strings_data

structure Localized where
  uuid : List Nat
  strings : List U8String
deriving DecidableEq

def Localized.read (bs : List Nat) : Option (Localized × List Nat) :=
  match readN 16 bs with
  | none => none
  | some (uuid, bs1) =>
    match readCount U8String.read LanguageLEN bs1 with
    | none => none
    | some (strings, bs2) => some (⟨uuid, strings⟩, bs2)

def Localized.write (l : Localized) : List Nat :=
  l.uuid ++ writeList U8String.write l.strings

/-- `Localized::rt_size`: `(uuid.len() + Σ full_size) as u32`. -/
def Localized.rt_size (l : Localized) : Nat :=
  (l.uuid.length + (l.strings.map U8String.full_size).sum) % 2 ^ 32

/-- `sort_cutscene_group`: stable sort of the groups by `lang_code`
(Rust's `sort_by` is stable; a stable sort under a total preorder is
unique, so insertion sort computes the same list). -/
def sort_cutscene_group (l : List CutsceneStringGroup) : List CutsceneStringGroup :=
  List.insertionSort (fun a b => a.lang_code ≤ b.lang_code) l

structure Cutscene where
  uuid : List Nat
  useless_block_len : Nat
  useless_block : List Nat
  lang_count : Nat
  list : List CutsceneStringGroup
  unk : List Nat
deriving DecidableEq

/-- `Cutscene` read: `useless_block` has `useless_block_len + 4` bytes,
where the count expression `useless_block_len + 4` is evaluated in `u32`
arithmetic and therefore wraps mod `2^32` when `useless_block_len ≥
2^32 - 4`; `lang_count` must equal `Language::LEN` (assert), the
per-language groups are sorted by numeric code immediately after reading
(`#[br(map = sort_cutscene_group)]`), then 5 trailing bytes. -/
def Cutscene.read (bs : List Nat) : Option (Cutscene × List Nat) :=
  match readN 16 bs with
  | none => none
  | some (uuid, bs1) =>
    match readLE 4 bs1 with
    | none => none
    | some (ubl, bs2) =>
      match readN ((ubl + 4) % 2 ^ 32) bs2 with
      | none => none
      | some (ub, bs3) =>
        match readLE 4 bs3 with
        | none => none
        | some (lc, bs4) =>
          if lc = LanguageLEN then
            match readCount CutsceneStringGroup.read LanguageLEN bs4 with
            | none => none
            | some (groups, bs5) =>
              match readN 5 bs5 with
              | none => none
              | some (unk, bs6) =>
                some (⟨uuid, ubl, ub, lc, sort_cutscene_group groups, unk⟩, bs6)
          else none

def Cutscene.write (c : Cutscene) : List Nat :=
  c.uuid ++ leBytes 4 c.useless_block_len ++ c.useless_block ++
    leBytes 4 c.lang_count ++ writeList CutsceneStringGroup.write c.list ++ c.unk

/-- `Cutscene::rt_size`: note that it uses the stored `useless_block_len`
field (not the vector's length) plus `4 + 4` for the extra block bytes and
`lang_count`, then per group `4 + 4` plus each string's `full_size + 8`;
the total is cast `as u32`. -/
def Cutscene.rt_size (c : Cutscene) : Nat :=
  (c.uuid.length + (c.useless_block_len + 4) + 8 + c.unk.length +
      (c.list.map (fun g =>
        8 + (g.strings_data.map (fun s => s.string.full_size + 8)).sum)).sum) % 2 ^ 32

inductive ChunkVariants where
  | Localized (loc : HZD.Localized)
  | Cutscene (cut : HZD.Cutscene)
  | Others (data : List Nat)
deriving DecidableEq

/-- binrw enum read: variants are attempted in declaration order (with
rewind between attempts); `pre_assert` gates an attempt on the magic, and
a failed payload parse falls through to the next variant, ending at
`Others`, which takes exactly `size` raw bytes. -/
def ChunkVariants.read (magic size : Nat) (bs : List Nat) :
    Option (ChunkVariants × List Nat) :=
  match (if magic = LOCALIZED_MAGIC then Localized.read bs else none) with
  | some (l, rest) => some (.Localized l, rest)
  | none =>
    match (if magic = CUTSCENE_MAGIC then Cutscene.read bs else none) with
    | some (c, rest) => some (.Cutscene c, rest)
    | none =>
      match readN size bs with
      | none => none
      | some (d, rest) => some (.Others d, rest)

def ChunkVariants.write : ChunkVariants → List Nat
  | .Localized l => l.write
  | .Cutscene c => c.write
  | .Others data => data

/-- `ChunkVariants::rt_size` (`Others` is `data.len() as u32`). -/
def ChunkVariants.rt_size : ChunkVariants → Nat
  | .Localized l => l.rt_size
  | .Cutscene c => c.rt_size
  | .Others data => data.length % 2 ^ 32

/-- A chunk stores magic and payload; the on-disk size field is
`#[br(temp)]` on read and `#[bw(calc = variant.rt_size())]` on write, so
it is never kept in memory. -/
structure Chunk where
  magic : Nat
  variant : ChunkVariants
deriving DecidableEq

def Chunk.read (bs : List Nat) : Option (Chunk × List Nat) :=
  match readLE 8 bs with
  | none => none
  | some (magic, bs1) =>
    match readLE 4 bs1 with
    | none => none
    | some (size, bs2) =>
      match ChunkVariants.read magic size bs2 with
      | none => none
      | some (v, bs3) => some (⟨magic, v⟩, bs3)

def Chunk.write (c : Chunk) : List Nat :=
  leBytes 8 c.magic ++ leBytes 4 c.variant.rt_size ++ c.variant.write

/-- `until_eof` chunk loop: end of input at a record boundary terminates
successfully; anything else that fails the record parser is an error.
The fuel argument (initialized to the stream length) only serves
termination: each record consumes at least 12 bytes, so it cannot run out
before the stream does. -/
def readChunksAux : Nat → List Nat → Option (List Chunk)
  | _, [] => some []
  | 0, _ :: _ => none
  | fuel + 1, b :: bs =>
    match Chunk.read (b :: bs) with
    | none => none
    | some (c, rest) =>
      match readChunksAux fuel rest with
      | none => none
      | some cs => some (c :: cs)

def readChunks (bs : List Nat) : Option (List Chunk) := readChunksAux bs.length bs

def writeChunks (cs : List Chunk) : List Nat := writeList Chunk.write cs

end HZD

/-! ## Canonical well-formedness and the parse-of-write round trip (HZD)

A chunk value is *canonically serializable* when every stored length
field agrees with the data it describes, every string fits its length
prefix and is validly encoded, and cutscene groups are sorted; every
value produced by a successful parse satisfies this, and for such values
writing and re-parsing is the identity. -/

def U8Wf (s : U8String) : Prop :=
  s.bytes.length < 2 ^ 16 ∧ isValidUtf8 s.bytes = true

instance : DecidablePred U8Wf := fun s =>
  decidable_of_iff (s.bytes.length < 2 ^ 16 ∧ isValidUtf8 s.bytes = true) Iff.rfl

def U16Wf (s : U16String) : Prop :=
  s.units.length < 2 ^ 32 ∧ (∀ u ∈ s.units, u < 2 ^ 16) ∧ isValidUtf16 s.units = true

instance : DecidablePred U16Wf := fun s =>
  decidable_of_iff
    (s.units.length < 2 ^ 32 ∧ (∀ u ∈ s.units, u < 2 ^ 16) ∧ isValidUtf16 s.units = true)
    Iff.rfl

namespace HZD

def CutsceneStringData.Wf (d : CutsceneStringData) : Prop :=
  U16Wf d.string ∧ d.timing < 2 ^ 64

instance : DecidablePred CutsceneStringData.Wf := fun d =>
  decidable_of_iff (U16Wf d.string ∧ d.timing < 2 ^ 64) Iff.rfl

def CutsceneStringGroup.Wf (g : CutsceneStringGroup) : Prop :=
  g.lang_code ≤ LanguageLEN ∧ g.count = g.strings_data.length ∧ g.count < 2 ^ 32 ∧
    ∀ d ∈ g.strings_data, d.Wf

instance : DecidablePred CutsceneStringGroup.Wf := fun g =>
  decidable_of_iff
    (g.lang_code ≤ LanguageLEN ∧ g.count = g.strings_data.length ∧ g.count < 2 ^ 32 ∧
      ∀ d ∈ g.strings_data, d.Wf) Iff.rfl

def Localized.Wf (l : Localized) : Prop :=
  l.uuid.length = 16 ∧ l.strings.length = LanguageLEN ∧ ∀ s ∈ l.strings, U8Wf s

instance : DecidablePred Localized.Wf := fun l =>
  decidable_of_iff
    (l.uuid.length = 16 ∧ l.strings.length = LanguageLEN ∧ ∀ s ∈ l.strings, U8Wf s)
    Iff.rfl

def Cutscene.Wf (c : Cutscene) : Prop :=
  c.uuid.length = 16 ∧ c.useless_block_len + 4 < 2 ^ 32 ∧
    c.useless_block.length = c.useless_block_len + 4 ∧ c.lang_count = LanguageLEN ∧
    c.list.length = LanguageLEN ∧
    List.Sorted (fun a b => a.lang_code ≤ b.lang_code) c.list ∧
    (∀ g ∈ c.list, g.Wf) ∧ c.unk.length = 5

instance : DecidablePred Cutscene.Wf := fun c =>
  decidable_of_iff
    (c.uuid.length = 16 ∧ c.useless_block_len + 4 < 2 ^ 32 ∧
      c.useless_block.length = c.useless_block_len + 4 ∧ c.lang_count = LanguageLEN ∧
      c.list.length = LanguageLEN ∧
      List.Sorted (fun a b : CutsceneStringGroup => a.lang_code ≤ b.lang_code) c.list ∧
      (∀ g ∈ c.list, g.Wf) ∧ c.unk.length = 5) Iff.rfl

def Chunk.Wf (c : Chunk) : Prop :=
  c.magic < 2 ^ 64 ∧
  match c.variant with
  | .Localized l => c.magic = LOCALIZED_MAGIC ∧ l.Wf
  | .Cutscene cut => c.magic = CUTSCENE_MAGIC ∧ cut.Wf
  | .Others d => ¬c.magic = LOCALIZED_MAGIC ∧ ¬c.magic = CUTSCENE_MAGIC ∧
      d.length < 2 ^ 32

instance : DecidablePred Chunk.Wf := fun c =>
  match c with
  | ⟨m, .Localized l⟩ => decidable_of_iff (m < 2 ^ 64 ∧ m = LOCALIZED_MAGIC ∧ l.Wf) Iff.rfl
  | ⟨m, .Cutscene cut⟩ => decidable_of_iff (m < 2 ^ 64 ∧ m = CUTSCENE_MAGIC ∧ cut.Wf) Iff.rfl
  | ⟨m, .Others d⟩ =>
    decidable_of_iff
      (m < 2 ^ 64 ∧ ¬m = LOCALIZED_MAGIC ∧ ¬m = CUTSCENE_MAGIC ∧ d.length < 2 ^ 32)
      Iff.rfl

theorem csd_read_write (d : CutsceneStringData) (rest : List Nat)
    (h : d.Wf) :
    CutsceneStringData.read (CutsceneStringData.write d ++ rest) = some (d, rest) := by
  unfold CutsceneStringData.read CutsceneStringData.write
  rw [List.append_assoc, u16string_read_write d.string _ h.1.1 h.1.2.1 h.1.2.2]
  dsimp only
  rw [readLE_leBytes]
  dsimp only
  have h88 : (8 * 8 : Nat) = 64 := by norm_num
  rw [h88, Nat.mod_eq_of_lt h.2]

theorem csg_read_write (g : CutsceneStringGroup) (rest : List Nat)
    (h : g.Wf) :
    CutsceneStringGroup.read (CutsceneStringGroup.write g ++ rest) = some (g, rest) := by
  obtain ⟨hlc, hcnt, hcnt32, hdata⟩ := h
  have hlc21 : g.lang_code ≤ 21 := hlc
  unfold CutsceneStringGroup.read CutsceneStringGroup.write
  rw [List.append_assoc, List.append_assoc, readLE_leBytes]
  dsimp only
  have h84 : (8 * 4 : Nat) = 32 := by norm_num
  have hlc32 : g.lang_code % 2 ^ (8 * 4) = g.lang_code := by
    rw [h84]
    exact Nat.mod_eq_of_lt (by omega)
  rw [hlc32, if_pos hlc, readLE_leBytes]
  dsimp only
  have hc32 : g.count % 2 ^ (8 * 4) = g.count := by
    rw [h84]
    exact Nat.mod_eq_of_lt hcnt32
  rw [hc32, hcnt,
    readCount_writeList CutsceneStringData.read CutsceneStringData.write g.strings_data
      rest (fun d hd r => csd_read_write d r (hdata d hd))]
  dsimp only
  rw [← hcnt]

theorem hzd_localized_read_write (l : Localized) (rest : List Nat) (h : l.Wf) :
    Localized.read (Localized.write l ++ rest) = some (l, rest) := by
  obtain ⟨huuid, hlen, hstrs⟩ := h
  unfold Localized.read Localized.write
  rw [List.append_assoc, ← huuid, readN_append]
  dsimp only
  rw [← hlen,
    readCount_writeList U8String.read U8String.write l.strings rest
      (fun s hs r => u8string_read_write s r (hstrs s hs).1 (hstrs s hs).2)]

theorem cutscene_read_write (c : Cutscene) (rest : List Nat) (h : c.Wf) :
    Cutscene.read (Cutscene.write c ++ rest) = some (c, rest) := by
  obtain ⟨huuid, hubl, hub, hlc, hlistlen, hsorted, hgroups, hunk⟩ := h
  unfold Cutscene.read Cutscene.write
  rw [List.append_assoc, List.append_assoc, List.append_assoc, List.append_assoc,
    List.append_assoc, ← huuid, readN_append]
  dsimp only
  rw [readLE_leBytes]
  dsimp only
  have h84 : (8 * 4 : Nat) = 32 := by norm_num
  have hu32 : c.useless_block_len % 2 ^ (8 * 4) = c.useless_block_len := by
    rw [h84]
    exact Nat.mod_eq_of_lt (by omega)
  have hwrap : (c.useless_block_len + 4) % 2 ^ 32 = c.useless_block_len + 4 :=
    Nat.mod_eq_of_lt hubl
  rw [hu32, hwrap, ← hub, readN_append]
  dsimp only
  rw [readLE_leBytes]
  dsimp only
  have hl32 : c.lang_count % 2 ^ (8 * 4) = c.lang_count := by
    rw [h84, hlc]
    norm_num [LanguageLEN]
  rw [hl32, if_pos hlc, ← hlistlen,
    readCount_writeList CutsceneStringGroup.read CutsceneStringGroup.write c.list _
      (fun g hg r => csg_read_write g r (hgroups g hg))]
  dsimp only
  rw [← hunk, readN_append]
  dsimp only
  rw [show sort_cutscene_group c.list = c.list from
    List.Sorted.insertionSort_eq hsorted]

theorem hzd_chunk_read_write (c : Chunk) (rest : List Nat) (h : c.Wf) :
    Chunk.read (Chunk.write c ++ rest) = some (c, rest) := by
  obtain ⟨hm, hv⟩ := h
  unfold Chunk.read Chunk.write
  rw [List.append_assoc, List.append_assoc, readLE_leBytes]
  dsimp only
  have h88 : (8 * 8 : Nat) = 64 := by norm_num
  rw [h88, Nat.mod_eq_of_lt hm, readLE_leBytes]
  dsimp only
  have h84 : (8 * 4 : Nat) = 32 := by norm_num
  have hrt : c.variant.rt_size % 2 ^ (8 * 4) = c.variant.rt_size := by
    rw [h84]
    exact Nat.mod_eq_of_lt (by
      match c with
      | ⟨m, .Localized l⟩ => exact Nat.mod_lt _ (by norm_num)
      | ⟨m, .Cutscene cut⟩ => exact Nat.mod_lt _ (by norm_num)
      | ⟨m, .Others d⟩ => exact Nat.mod_lt _ (by norm_num))
  rw [hrt]
  match c with
  | ⟨m, .Localized l⟩ =>
    obtain ⟨hmagic, hwf⟩ := hv
    unfold ChunkVariants.read
    rw [if_pos hmagic]
    dsimp only [ChunkVariants.write]
    rw [hzd_localized_read_write l rest hwf]
  | ⟨m, .Cutscene cut⟩ =>
    obtain ⟨hmagic, hwf⟩ := hv
    have hne : ¬(m = LOCALIZED_MAGIC) := by
      have hm2 : m = CUTSCENE_MAGIC := hmagic
      rw [hm2]
      decide
    unfold ChunkVariants.read
    rw [if_neg hne, if_pos hmagic]
    dsimp only [ChunkVariants.write]
    rw [cutscene_read_write cut rest hwf]
  | ⟨m, .Others d⟩ =>
    obtain ⟨hm1, hm2, hd⟩ := hv
    unfold ChunkVariants.read
    rw [if_neg hm1, if_neg hm2]
    dsimp only [ChunkVariants.write, ChunkVariants.rt_size]
    rw [Nat.mod_eq_of_lt hd, readN_append]

theorem hzd_chunk_write_ne_nil (c : Chunk) : Chunk.write c ≠ [] := by
  unfold Chunk.write
  intro h
  have := congrArg List.length h
  simp [leBytes_length] at this

theorem hzd_readChunksAux_writeChunks (cs : List Chunk) (fuel : Nat)
    (hfuel : cs.length ≤ fuel) (h : ∀ c ∈ cs, c.Wf) :
    readChunksAux fuel (writeChunks cs) = some cs := by
  induction cs generalizing fuel with
  | nil =>
    match fuel with
    | 0 => rfl
    | fuel + 1 => rfl
  | cons c cs ih =>
    match fuel with
    | 0 => exact absurd hfuel (by simp)
    | fuel + 1 =>
      have hwrite : writeChunks (c :: cs) = Chunk.write c ++ writeChunks cs := rfl
      have hC := hzd_chunk_read_write c (writeChunks cs) (h c (List.mem_cons_self c cs))
      match hcw : Chunk.write c with
      | [] => exact absurd hcw (hzd_chunk_write_ne_nil c)
      | b :: bs =>
        rw [hwrite, hcw]
        rw [hcw] at hC
        have : readChunksAux (fuel + 1) (b :: bs ++ writeChunks cs) =
            match Chunk.read (b :: bs ++ writeChunks cs) with
            | none => none
            | some (c, rest) =>
              match readChunksAux fuel rest with
              | none => none
              | some cs => some (c :: cs) := rfl
        rw [this, hC]
        dsimp only
        rw [ih fuel (by simp at hfuel; omega) (fun x hx => h x (List.mem_cons_of_mem _ hx))]

theorem hzd_readChunks_writeChunks (cs : List Chunk) (h : ∀ c ∈ cs, c.Wf) :
    readChunks (writeChunks cs) = some cs := by
  unfold readChunks
  apply hzd_readChunksAux_writeChunks cs _ _ h
  unfold writeChunks
  apply writeList_length_ge
  intro c _
  match hcw : Chunk.write c with
  | [] => exact absurd hcw (hzd_chunk_write_ne_nil c)
  | b :: bs => simp

end HZD

/-! ## Death Stranding binary structures (games/ds/structures.rs)

DS uses the generic `Chunk<V>` of games/chunks.rs with a two-variant
payload; `Localized` holds 25 `LocalGroup`s (text, translator note, mode
byte). -/

namespace DS

/-- The DS language enumeration has 25 densely numbered codes (0..=24). -/
def LanguageLEN : Nat := 25

def LOCALIZED_MAGIC : Nat := 0x31BE502435317445

structure LocalGroup where
  text : U8String
  note : U8String
  mode : Nat
deriving DecidableEq

def LocalGroup.read (bs : List Nat) : Option (LocalGroup × List Nat) :=
  match U8String.read bs with
  | none => none
  | some (text, bs1) =>
    match U8String.read bs1 with
    | none => none
    | some (note, bs2) =>
      match readLE 1 bs2 with
      | none => none
      | some (mode, bs3) => some (⟨text, note, mode⟩, bs3)

def LocalGroup.write (g : LocalGroup) : List Nat :=
  U8String.write g.text ++ U8String.write g.note ++ leBytes 1 g.mode

/-- `LocalGroup::rt_size`: `(text.full_size + note.full_size + 1) as u32`. -/
def LocalGroup.rt_size (g : LocalGroup) : Nat :=
  (g.text.full_size + g.note.full_size + 1) % 2 ^ 32

structure Localized where
  uuid : List Nat
  string_groups : List LocalGroup
deriving DecidableEq

def Localized.read (bs : List Nat) : Option (Localized × List Nat) :=
  match readN 16 bs with
  | none => none
  | some (uuid, bs1) =>
    match readCount LocalGroup.read LanguageLEN bs1 with
    | none => none
    | some (groups, bs2) => some (⟨uuid, groups⟩, bs2)

def Localized.write (l : Localized) : List Nat :=
  l.uuid ++ writeList LocalGroup.write l.string_groups

/-- `Localized::rt_size`: `uuid.len() as u32 + Σ g.rt_size()`; the `u32`
additions wrap, which equals reducing the total sum mod `2^32`. -/
def Localized.rt_size (l : Localized) : Nat :=
  (l.uuid.length + (l.string_groups.map LocalGroup.rt_size).sum) % 2 ^ 32

inductive ChunkVariants where
  | Localized (loc : DS.Localized)
  | Others (data : List Nat)
deriving DecidableEq

/-- binrw enum read, as for HZD: `Localized` is gated on the magic and a
failed payload parse falls back to `Others` with exactly `size` bytes. -/
def ChunkVariants.read (magic size : Nat) (bs : List Nat) :
    Option (ChunkVariants × List Nat) :=
  match (if magic = LOCALIZED_MAGIC then Localized.read bs else none) with
  | some (l, rest) => some (.Localized l, rest)
  | none =>
    match readN size bs with
    | none => none
    | some (d, rest) => some (.Others d, rest)

def ChunkVariants.write : ChunkVariants → List Nat
  | .Localized l => l.write
  | .Others data => data

def ChunkVariants.rt_size : ChunkVariants → Nat
  | .Localized l => l.rt_size
  | .Others data => data.length % 2 ^ 32

/-- The generic `Chunk<V>` of games/chunks.rs: size is transient
(`#[br(temp)]`, `#[bw(calc = variant.rt_size())]`). -/
structure Chunk where
  magic : Nat
  variant : ChunkVariants
deriving DecidableEq

def Chunk.read (bs : List Nat) : Option (Chunk × List Nat) :=
  match readLE 8 bs with
  | none => none
  | some (magic, bs1) =>
    match readLE 4 bs1 with
    | none => none
    | some (size, bs2) =>
      match ChunkVariants.read magic size bs2 with
      | none => none
      | some (v, bs3) => some (⟨magic, v⟩, bs3)

def Chunk.write (c : Chunk) : List Nat :=
  leBytes 8 c.magic ++ leBytes 4 c.variant.rt_size ++ c.variant.write

def readChunksAux : Nat → List Nat → Option (List Chunk)
  | _, [] => some []
  | 0, _ :: _ => none
  | fuel + 1, b :: bs =>
    match Chunk.read (b :: bs) with
    | none => none
    | some (c, rest) =>
      match readChunksAux fuel rest with
      | none => none
      | some cs => some (c :: cs)

def readChunks (bs : List Nat) : Option (List Chunk) := readChunksAux bs.length bs

def writeChunks (cs : List Chunk) : List Nat := writeList Chunk.write cs

def LocalGroup.Wf (g : LocalGroup) : Prop :=
  U8Wf g.text ∧ U8Wf g.note ∧ g.mode < 2 ^ 8

instance : DecidablePred LocalGroup.Wf := fun g =>
  decidable_of_iff (U8Wf g.text ∧ U8Wf g.note ∧ g.mode < 2 ^ 8) Iff.rfl

def Localized.Wf (l : Localized) : Prop :=
  l.uuid.length = 16 ∧ l.string_groups.length = LanguageLEN ∧
    ∀ g ∈ l.string_groups, g.Wf

instance : DecidablePred Localized.Wf := fun l =>
  decidable_of_iff
    (l.uuid.length = 16 ∧ l.string_groups.length = LanguageLEN ∧
      ∀ g ∈ l.string_groups, g.Wf) Iff.rfl

def Chunk.Wf (c : Chunk) : Prop :=
  c.magic < 2 ^ 64 ∧
  match c.variant with
  | .Localized l => c.magic = LOCALIZED_MAGIC ∧ l.Wf
  | .Others d => ¬c.magic = LOCALIZED_MAGIC ∧ d.length < 2 ^ 32

instance : DecidablePred Chunk.Wf := fun c =>
  match c with
  | ⟨m, .Localized l⟩ => decidable_of_iff (m < 2 ^ 64 ∧ m = LOCALIZED_MAGIC ∧ l.Wf) Iff.rfl
  | ⟨m, .Others d⟩ =>
    decidable_of_iff (m < 2 ^ 64 ∧ ¬m = LOCALIZED_MAGIC ∧ d.length < 2 ^ 32) Iff.rfl

theorem localgroup_read_write (g : LocalGroup) (rest : List Nat) (h : g.Wf) :
    LocalGroup.read (LocalGroup.write g ++ rest) = some (g, rest) := by
  obtain ⟨htext, hnote, hmode⟩ := h
  unfold LocalGroup.read LocalGroup.write
  rw [List.append_assoc, List.append_assoc,
    u8string_read_write g.text _ htext.1 htext.2]
  dsimp only
  rw [u8string_read_write g.note _ hnote.1 hnote.2]
  dsimp only
  rw [readLE_leBytes]
  dsimp only
  have h81 : (8 * 1 : Nat) = 8 := by norm_num
  rw [h81, Nat.mod_eq_of_lt hmode]

theorem ds_localized_read_write (l : Localized) (rest : List Nat) (h : l.Wf) :
    Localized.read (Localized.write l ++ rest) = some (l, rest) := by
  obtain ⟨huuid, hlen, hgroups⟩ := h
  unfold Localized.read Localized.write
  rw [List.append_assoc, ← huuid, readN_append]
  dsimp only
  rw [← hlen,
    readCount_writeList LocalGroup.read LocalGroup.write l.string_groups rest
      (fun g hg r => localgroup_read_write g r (hgroups g hg))]

theorem ds_chunk_read_write (c : Chunk) (rest : List Nat) (h : c.Wf) :
    Chunk.read (Chunk.write c ++ rest) = some (c, rest) := by
  obtain ⟨hm, hv⟩ := h
  unfold Chunk.read Chunk.write
  rw [List.append_assoc, List.append_assoc, readLE_leBytes]
  dsimp only
  have h88 : (8 * 8 : Nat) = 64 := by norm_num
  rw [h88, Nat.mod_eq_of_lt hm, readLE_leBytes]
  dsimp only
  have h84 : (8 * 4 : Nat) = 32 := by norm_num
  have hrt : c.variant.rt_size % 2 ^ (8 * 4) = c.variant.rt_size := by
    rw [h84]
    exact Nat.mod_eq_of_lt (by
      match c with
      | ⟨m, .Localized l⟩ => exact Nat.mod_lt _ (by norm_num)
      | ⟨m, .Others d⟩ => exact Nat.mod_lt _ (by norm_num))
  rw [hrt]
  match c with
  | ⟨m, .Localized l⟩ =>
    obtain ⟨hmagic, hwf⟩ := hv
    unfold ChunkVariants.read
    rw [if_pos hmagic]
    dsimp only [ChunkVariants.write]
    rw [ds_localized_read_write l rest hwf]
  | ⟨m, .Others d⟩ =>
    obtain ⟨hm1, hd⟩ := hv
    unfold ChunkVariants.read
    rw [if_neg hm1]
    dsimp only [ChunkVariants.write, ChunkVariants.rt_size]
    rw [Nat.mod_eq_of_lt hd, readN_append]

theorem ds_chunk_write_ne_nil (c : Chunk) : Chunk.write c ≠ [] := by
  unfold Chunk.write
  intro h
  have := congrArg List.length h
  simp [leBytes_length] at this

theorem ds_readChunksAux_writeChunks (cs : List Chunk) (fuel : Nat)
    (hfuel : cs.length ≤ fuel) (h : ∀ c ∈ cs, c.Wf) :
    readChunksAux fuel (writeChunks cs) = some cs := by
  induction cs generalizing fuel with
  | nil =>
    match fuel with
    | 0 => rfl
    | fuel + 1 => rfl
  | cons c cs ih =>
    match fuel with
    | 0 => exact absurd hfuel (by simp)
    | fuel + 1 =>
      have hwrite : writeChunks (c :: cs) = Chunk.write c ++ writeChunks cs := rfl
      have hC := ds_chunk_read_write c (writeChunks cs) (h c (List.mem_cons_self c cs))
      match hcw : Chunk.write c with
      | [] => exact absurd hcw (ds_chunk_write_ne_nil c)
      | b :: bs =>
        rw [hwrite, hcw]
        rw [hcw] at hC
        have : readChunksAux (fuel + 1) (b :: bs ++ writeChunks cs) =
            match Chunk.read (b :: bs ++ writeChunks cs) with
            | none => none
            | some (c, rest) =>
              match readChunksAux fuel rest with
              | none => none
              | some cs => some (c :: cs) := rfl
        rw [this, hC]
        dsimp only
        rw [ih fuel (by simp at hfuel; omega) (fun x hx => h x (List.mem_cons_of_mem _ hx))]

theorem ds_readChunks_writeChunks (cs : List Chunk) (h : ∀ c ∈ cs, c.Wf) :
    readChunks (writeChunks cs) = some cs := by
  unfold readChunks
  apply ds_readChunksAux_writeChunks cs _ _ h
  unfold writeChunks
  apply writeList_length_ge
  intro c _
  match hcw : Chunk.write c with
  | [] => exact absurd hcw (ds_chunk_write_ne_nil c)
  | b :: bs => simp

end DS

/-! ## Game state constructors and writers (games/hzd/mod.rs, games/ds/mod.rs) -/

/-- The crate-level error variants relevant to the constructors
(`Error::BinRw` wraps any binrw parse failure; `Error::NoLocalResource`
rejects a file without localization payloads). -/
inductive Error where
  | BinRw
  | NoLocalResource
deriving DecidableEq

/-- `matches!(c.variant, ChunkVariants::Cutscene(_) | ChunkVariants::Localized(_))`. -/
def HZD.isLocalChunk (c : HZD.Chunk) : Bool :=
  match c.variant with
  | .Localized _ => true
  | .Cutscene _ => true
  | .Others _ => false

structure HZD.HZDLocal where
  chunks : List HZD.Chunk
deriving DecidableEq

/-- `HZDLocal::new`: read chunks `until_eof`; fail with `NoLocalResource`
when no chunk is a `Cutscene` or `Localized` payload. -/
def HZD.HZDLocal.new (bs : List Nat) : Except Error HZD.HZDLocal :=
  match HZD.readChunks bs with
  | none => Except.error Error.BinRw
  | some chunks =>
    if chunks.any HZD.isLocalChunk then Except.ok ⟨chunks⟩
    else Except.error Error.NoLocalResource

/-- `HZDLocal::write`: `self.chunks.write(writer)` writes every chunk in
order. -/
def HZD.HZDLocal.write (l : HZD.HZDLocal) : List Nat := HZD.writeChunks l.chunks

/-- `matches!(c.variant, ChunkVariants::Localized(_))`. -/
def DS.isLocalChunk (c : DS.Chunk) : Bool :=
  match c.variant with
  | .Localized _ => true
  | .Others _ => false

structure DS.DSLocal where
  chunks : List DS.Chunk
deriving DecidableEq

/-- `DSLocal::new`. -/
def DS.DSLocal.new (bs : List Nat) : Except Error DS.DSLocal :=
  match DS.readChunks bs with
  | none => Except.error Error.BinRw
  | some chunks =>
    if chunks.any DS.isLocalChunk then Except.ok ⟨chunks⟩
    else Except.error Error.NoLocalResource

/-- `DSLocal::write`. -/
def DS.DSLocal.write (l : DS.DSLocal) : List Nat := DS.writeChunks l.chunks

/-- A parseable HZD container whose stored size field (999) does not match
its Localized payload's serialized size (58 bytes: a 16-byte uuid plus 21
empty narrow strings). -/
def staleSizeStream : List Nat :=
  leBytes 8 HZD.LOCALIZED_MAGIC ++ leBytes 4 999 ++ List.replicate 58 0

/-- C1, counterexample: `staleSizeStream` parses successfully (the size
field is not used when reading a Localized payload), but writing the
parsed state back emits the recomputed size 58 instead of the stored 999,
so the output differs from the input. -/
theorem hzd_roundtrip_not_identity :
    HZD.HZDLocal.new staleSizeStream =
      Except.ok ⟨[⟨HZD.LOCALIZED_MAGIC,
        HZD.ChunkVariants.Localized ⟨List.replicate 16 0, List.replicate 21 ⟨[]⟩⟩⟩]⟩ ∧
    HZD.HZDLocal.write ⟨[⟨HZD.LOCALIZED_MAGIC,
        HZD.ChunkVariants.Localized ⟨List.replicate 16 0, List.replicate 21 ⟨[]⟩⟩⟩]⟩ ≠
      staleSizeStream := by
  constructor
  · rfl
  · decide

/-- C1 (amended): for every canonically serialized container (size fields
equal to the recomputed payload sizes, strings fitting their prefixes,
cutscene groups sorted, stored counts consistent, and each cutscene's
preserved block small enough that the `u32` count expression
`useless_block_len + 4` does not wrap mod `2^32`) that holds at least one
local resource, `new` parses the bytes to exactly the written chunk list
and `write` reproduces the input byte for byte — including the raw bytes
of every `Others` chunk.  This holds for both games. -/
theorem new_write_roundtrip (hcs : List HZD.Chunk) (dcs : List DS.Chunk)
    (hwf : ∀ c ∈ hcs, c.Wf) (hloc : hcs.any HZD.isLocalChunk = true)
    (dwf : ∀ c ∈ dcs, c.Wf) (dloc : dcs.any DS.isLocalChunk = true) :
    HZD.HZDLocal.new (HZD.writeChunks hcs) = Except.ok ⟨hcs⟩ ∧
    HZD.HZDLocal.write ⟨hcs⟩ = HZD.writeChunks hcs ∧
    DS.DSLocal.new (DS.writeChunks dcs) = Except.ok ⟨dcs⟩ ∧
    DS.DSLocal.write ⟨dcs⟩ = DS.writeChunks dcs := by
  refine ⟨?_, rfl, ?_, rfl⟩
  · unfold HZD.HZDLocal.new
    rw [HZD.hzd_readChunks_writeChunks hcs hwf]
    dsimp only
    rw [if_pos hloc]
  · unfold DS.DSLocal.new
    rw [DS.ds_readChunks_writeChunks dcs dwf]
    dsimp only
    rw [if_pos dloc]

/-- Concrete canonical HZD container: one Localized chunk, one Cutscene
chunk (21 empty groups), one Opaque chunk. -/
def hzdRoundtripChunks : List HZD.Chunk :=
  [⟨HZD.LOCALIZED_MAGIC,
      HZD.ChunkVariants.Localized ⟨List.replicate 16 0, List.replicate 21 ⟨[]⟩⟩⟩,
    ⟨HZD.CUTSCENE_MAGIC,
      HZD.ChunkVariants.Cutscene
        ⟨List.replicate 16 0, 0, List.replicate 4 0, 21,
          List.replicate 21 ⟨0, 0, []⟩, List.replicate 5 0⟩⟩,
    ⟨0, HZD.ChunkVariants.Others [7, 7]⟩]

/-- Concrete canonical DS container: one Localized chunk and one Opaque
chunk. -/
def dsRoundtripChunks : List DS.Chunk :=
  [⟨DS.LOCALIZED_MAGIC,
      DS.ChunkVariants.Localized ⟨List.replicate 16 0, List.replicate 25 ⟨⟨[]⟩, ⟨[]⟩, 0⟩⟩⟩,
    ⟨0, DS.ChunkVariants.Others [9]⟩]

/-- Witness for `new_write_roundtrip` at the two concrete containers. -/
theorem new_write_roundtrip_witness :
    HZD.HZDLocal.new (HZD.writeChunks hzdRoundtripChunks) =
        Except.ok ⟨hzdRoundtripChunks⟩ ∧
      HZD.HZDLocal.write ⟨hzdRoundtripChunks⟩ = HZD.writeChunks hzdRoundtripChunks ∧
      DS.DSLocal.new (DS.writeChunks dsRoundtripChunks) =
        Except.ok ⟨dsRoundtripChunks⟩ ∧
      DS.DSLocal.write ⟨dsRoundtripChunks⟩ = DS.writeChunks dsRoundtripChunks :=
  new_write_roundtrip hzdRoundtripChunks dsRoundtripChunks
    (by decide) (by decide) (by decide) (by decide)

/-- C8: when the chunk stream parses, the constructor returns
`NoLocalResource` exactly when no chunk is a localization payload
(`Localized`/`Cutscene` for HZD, `Localized` for DS); when at least one
such chunk exists the constructor succeeds with the parsed chunks. -/
theorem new_no_local_resource (bsH bsD : List Nat)
    (hcs : List HZD.Chunk) (dcs : List DS.Chunk)
    (hH : HZD.readChunks bsH = some hcs) (hD : DS.readChunks bsD = some dcs) :
    (HZD.HZDLocal.new bsH = Except.error Error.NoLocalResource ↔
      ∀ c ∈ hcs, HZD.isLocalChunk c = false) ∧
    (hcs.any HZD.isLocalChunk = true → HZD.HZDLocal.new bsH = Except.ok ⟨hcs⟩) ∧
    (DS.DSLocal.new bsD = Except.error Error.NoLocalResource ↔
      ∀ c ∈ dcs, DS.isLocalChunk c = false) ∧
    (dcs.any DS.isLocalChunk = true → DS.DSLocal.new bsD = Except.ok ⟨dcs⟩) := by
  have hHiff : HZD.HZDLocal.new bsH = Except.error Error.NoLocalResource ↔
      ∀ c ∈ hcs, HZD.isLocalChunk c = false := by
    unfold HZD.HZDLocal.new
    rw [hH]
    dsimp only
    by_cases hA : hcs.any HZD.isLocalChunk = true
    · rw [if_pos hA]
      constructor
      · intro h
        exact Except.noConfusion h
      · intro hall
        obtain ⟨c, hc, hct⟩ := List.any_eq_true.mp hA
        rw [hall c hc] at hct
        exact absurd hct Bool.false_ne_true
    · rw [if_neg hA]
      constructor
      · intro _ c hc
        by_contra hcf
        simp only [Bool.not_eq_false] at hcf
        exact hA (List.any_eq_true.mpr ⟨c, hc, hcf⟩)
      · intro _
        rfl
  have hHok : hcs.any HZD.isLocalChunk = true →
      HZD.HZDLocal.new bsH = Except.ok ⟨hcs⟩ := by
    intro hA
    unfold HZD.HZDLocal.new
    rw [hH]
    dsimp only
    rw [if_pos hA]
  have hDiff : DS.DSLocal.new bsD = Except.error Error.NoLocalResource ↔
      ∀ c ∈ dcs, DS.isLocalChunk c = false := by
    unfold DS.DSLocal.new
    rw [hD]
    dsimp only
    by_cases hB : dcs.any DS.isLocalChunk = true
    · rw [if_pos hB]
      constructor
      · intro h
        exact Except.noConfusion h
      · intro hall
        obtain ⟨c, hc, hct⟩ := List.any_eq_true.mp hB
        rw [hall c hc] at hct
        exact absurd hct Bool.false_ne_true
    · rw [if_neg hB]
      constructor
      · intro _ c hc
        by_contra hcf
        simp only [Bool.not_eq_false] at hcf
        exact hB (List.any_eq_true.mpr ⟨c, hc, hcf⟩)
      · intro _
        rfl
  have hDok : dcs.any DS.isLocalChunk = true →
      DS.DSLocal.new bsD = Except.ok ⟨dcs⟩ := by
    intro hB
    unfold DS.DSLocal.new
    rw [hD]
    dsimp only
    rw [if_pos hB]
  exact ⟨hHiff, hHok, hDiff, hDok⟩

set_option maxRecDepth 8000 in
/-- Witness for `new_no_local_resource`: an HZD stream holding a single
Opaque chunk (12 zero bytes) is rejected; the DS container
`dsRoundtripChunks` holding a Localized chunk is accepted. -/
theorem new_no_local_resource_witness :
    (HZD.HZDLocal.new (List.replicate 12 0) = Except.error Error.NoLocalResource ↔
      ∀ c ∈ [(⟨0, HZD.ChunkVariants.Others []⟩ : HZD.Chunk)],
        HZD.isLocalChunk c = false) ∧
    ([(⟨0, HZD.ChunkVariants.Others []⟩ : HZD.Chunk)].any HZD.isLocalChunk = true →
      HZD.HZDLocal.new (List.replicate 12 0) =
        Except.ok ⟨[⟨0, HZD.ChunkVariants.Others []⟩]⟩) ∧
    (DS.DSLocal.new (DS.writeChunks dsRoundtripChunks) =
        Except.error Error.NoLocalResource ↔
      ∀ c ∈ dsRoundtripChunks, DS.isLocalChunk c = false) ∧
    (dsRoundtripChunks.any DS.isLocalChunk = true →
      DS.DSLocal.new (DS.writeChunks dsRoundtripChunks) =
        Except.ok ⟨dsRoundtripChunks⟩) :=
  new_no_local_resource (List.replicate 12 0) (DS.writeChunks dsRoundtripChunks)
    [⟨0, HZD.ChunkVariants.Others []⟩] dsRoundtripChunks (by decide) (by decide)

/-! ## C6: the written size field is recomputed from the payload -/

theorem writeList_length {α : Type} (w : α → List Nat) (xs : List α) :
    (writeList w xs).length = (xs.map fun x => (w x).length).sum := by
  induction xs with
  | nil => rfl
  | cons x xs ih => simp [writeList, ih]

theorem sum_map_mod_add (a m : Nat) (xs : List Nat) :
    (a + (xs.map fun x => x % m).sum) % m = (a + xs.sum) % m := by
  induction xs generalizing a with
  | nil => rfl
  | cons x xs ih =>
    simp only [List.map_cons, List.sum_cons]
    have h1 : (a + (x % m + (List.map (fun x => x % m) xs).sum)) =
        (a + x % m) + (List.map (fun x => x % m) xs).sum := by ring
    have h2 : (a + (x + xs.sum)) = (a + x) + xs.sum := by ring
    rw [h1, h2, ih (a + x % m)]
    exact ((Nat.mod_modEq x m).add_left a).add_right xs.sum

theorem hzd_csd_write_length (d : HZD.CutsceneStringData) :
    (HZD.CutsceneStringData.write d).length = d.string.full_size + 8 := by
  unfold HZD.CutsceneStringData.write
  simp [u16string_write_length, leBytes_length]

theorem hzd_csg_write_length (g : HZD.CutsceneStringGroup) :
    (HZD.CutsceneStringGroup.write g).length =
      8 + (g.strings_data.map fun s => s.string.full_size + 8).sum := by
  unfold HZD.CutsceneStringGroup.write
  simp only [List.length_append, leBytes_length, writeList_length]
  have : (g.strings_data.map fun d => (HZD.CutsceneStringData.write d).length) =
      g.strings_data.map fun s => s.string.full_size + 8 :=
    List.map_congr_left fun d _ => hzd_csd_write_length d
  rw [this]

theorem hzd_localized_write_length (l : HZD.Localized) :
    (HZD.Localized.write l).length =
      l.uuid.length + (l.strings.map U8String.full_size).sum := by
  unfold HZD.Localized.write
  simp only [List.length_append, writeList_length]
  have : (l.strings.map fun s => (U8String.write s).length) =
      l.strings.map U8String.full_size :=
    List.map_congr_left fun s _ => u8string_write_length s
  rw [this]

theorem hzd_cutscene_write_length (c : HZD.Cutscene)
    (hub : c.useless_block.length = c.useless_block_len + 4) :
    (HZD.Cutscene.write c).length =
      c.uuid.length + (c.useless_block_len + 4) + 8 + c.unk.length +
        (c.list.map (fun g =>
          8 + (g.strings_data.map (fun s => s.string.full_size + 8)).sum)).sum := by
  unfold HZD.Cutscene.write
  simp only [List.length_append, leBytes_length, writeList_length]
  have : (c.list.map fun g => (HZD.CutsceneStringGroup.write g).length) =
      c.list.map (fun g =>
        8 + (g.strings_data.map (fun s => s.string.full_size + 8)).sum) :=
    List.map_congr_left fun g _ => hzd_csg_write_length g
  rw [this, hub]
  omega

theorem ds_localgroup_write_length (g : DS.LocalGroup) :
    (DS.LocalGroup.write g).length = g.text.full_size + g.note.full_size + 1 := by
  unfold DS.LocalGroup.write
  simp [u8string_write_length, leBytes_length]
  omega

theorem ds_localized_write_length (l : DS.Localized) :
    (DS.Localized.write l).length =
      l.uuid.length +
        (l.string_groups.map fun g => g.text.full_size + g.note.full_size + 1).sum := by
  unfold DS.Localized.write
  simp only [List.length_append, writeList_length]
  have : (l.string_groups.map fun g => (DS.LocalGroup.write g).length) =
      l.string_groups.map fun g => g.text.full_size + g.note.full_size + 1 :=
    List.map_congr_left fun g _ => ds_localgroup_write_length g
  rw [this]

/-- C6 (amended): the size field emitted for a chunk is a pure function of
the payload's current contents — the payload's exact serialized byte
length reduced mod `2^32` (for HZD cutscenes, provided the preserved
opaque block has its read-time length `useless_block_len + 4`).  It equals
the exact length whenever that length fits in 32 bits, and the chunk
writer emits precisely `magic ++ size ++ payload` with this recomputed
size, never a size carried over from the input. -/
theorem rt_size_recomputed (v : HZD.ChunkVariants) (dv : DS.ChunkVariants)
    (hub : match v with
      | HZD.ChunkVariants.Cutscene c => c.useless_block.length = c.useless_block_len + 4
      | _ => True) :
    HZD.ChunkVariants.rt_size v = (HZD.ChunkVariants.write v).length % 2 ^ 32 ∧
    ((HZD.ChunkVariants.write v).length < 2 ^ 32 →
      HZD.ChunkVariants.rt_size v = (HZD.ChunkVariants.write v).length) ∧
    (∀ c : HZD.Chunk, HZD.Chunk.write c =
      leBytes 8 c.magic ++ leBytes 4 c.variant.rt_size ++ c.variant.write) ∧
    DS.ChunkVariants.rt_size dv = (DS.ChunkVariants.write dv).length % 2 ^ 32 ∧
    ((DS.ChunkVariants.write dv).length < 2 ^ 32 →
      DS.ChunkVariants.rt_size dv = (DS.ChunkVariants.write dv).length) := by
  have hH : HZD.ChunkVariants.rt_size v = (HZD.ChunkVariants.write v).length % 2 ^ 32 := by
    match v with
    | HZD.ChunkVariants.Localized l =>
      dsimp only [HZD.ChunkVariants.rt_size, HZD.ChunkVariants.write]
      rw [HZD.Localized.rt_size, hzd_localized_write_length]
    | HZD.ChunkVariants.Cutscene c =>
      dsimp only [HZD.ChunkVariants.rt_size, HZD.ChunkVariants.write]
      rw [HZD.Cutscene.rt_size, hzd_cutscene_write_length c hub]
    | HZD.ChunkVariants.Others d =>
      dsimp only [HZD.ChunkVariants.rt_size, HZD.ChunkVariants.write]
  have hD : DS.ChunkVariants.rt_size dv = (DS.ChunkVariants.write dv).length % 2 ^ 32 := by
    match dv with
    | DS.ChunkVariants.Localized l =>
      dsimp only [DS.ChunkVariants.rt_size, DS.ChunkVariants.write]
      rw [DS.Localized.rt_size, ds_localized_write_length]
      have hmap : l.string_groups.map DS.LocalGroup.rt_size =
          l.string_groups.map fun g =>
            (g.text.full_size + g.note.full_size + 1) % 2 ^ 32 :=
        List.map_congr_left fun g _ => rfl
      rw [hmap]
      have hs := sum_map_mod_add l.uuid.length (2 ^ 32)
        (l.string_groups.map fun g => g.text.full_size + g.note.full_size + 1)
      simp only [List.map_map, Function.comp] at hs
      exact hs
    | DS.ChunkVariants.Others d =>
      dsimp only [DS.ChunkVariants.rt_size, DS.ChunkVariants.write]
  refine ⟨hH, fun hlt => ?_, fun c => rfl, hD, fun hlt => ?_⟩
  · rw [hH, Nat.mod_eq_of_lt hlt]
  · rw [hD, Nat.mod_eq_of_lt hlt]

/-- C6, counterexample to the claim as stated: an Opaque payload of
`2^32` bytes serializes to `2^32` bytes, but the emitted 32-bit size
value is `0` — the "exact byte length" reading fails once the length
wraps. -/
theorem rt_size_wraps :
    HZD.ChunkVariants.rt_size (HZD.ChunkVariants.Others (List.replicate (2 ^ 32) 0)) = 0 ∧
    (HZD.ChunkVariants.write
      (HZD.ChunkVariants.Others (List.replicate (2 ^ 32) 0))).length = 2 ^ 32 := by
  have h1 : ∀ d : List Nat, d.length = 2 ^ 32 →
      HZD.ChunkVariants.rt_size (HZD.ChunkVariants.Others d) = 0 := fun d hd => by
    show d.length % 2 ^ 32 = 0
    rw [hd, Nat.mod_self]
  have h2 : ∀ d : List Nat, d.length = 2 ^ 32 →
      (HZD.ChunkVariants.write (HZD.ChunkVariants.Others d)).length = 2 ^ 32 :=
    fun d hd => hd
  exact ⟨h1 _ (List.length_replicate _ _), h2 _ (List.length_replicate _ _)⟩

/-- Witness for `rt_size_recomputed` at a concrete cutscene variant and a
concrete DS localized variant. -/
theorem rt_size_recomputed_witness :
    HZD.ChunkVariants.rt_size
        (HZD.ChunkVariants.Cutscene
          ⟨List.replicate 16 0, 0, List.replicate 4 0, 21,
            List.replicate 21 ⟨0, 0, []⟩, List.replicate 5 0⟩) =
      (HZD.ChunkVariants.write
        (HZD.ChunkVariants.Cutscene
          ⟨List.replicate 16 0, 0, List.replicate 4 0, 21,
            List.replicate 21 ⟨0, 0, []⟩, List.replicate 5 0⟩)).length % 2 ^ 32 ∧
    DS.ChunkVariants.rt_size
        (DS.ChunkVariants.Localized ⟨List.replicate 16 0, List.replicate 25 ⟨⟨[]⟩, ⟨[]⟩, 0⟩⟩) =
      (DS.ChunkVariants.write
        (DS.ChunkVariants.Localized
          ⟨List.replicate 16 0, List.replicate 25 ⟨⟨[]⟩, ⟨[]⟩, 0⟩⟩)).length % 2 ^ 32 := by
  have h := rt_size_recomputed
    (HZD.ChunkVariants.Cutscene
      ⟨List.replicate 16 0, 0, List.replicate 4 0, 21,
        List.replicate 21 ⟨0, 0, []⟩, List.replicate 5 0⟩)
    (DS.ChunkVariants.Localized ⟨List.replicate 16 0, List.replicate 25 ⟨⟨[]⟩, ⟨[]⟩, 0⟩⟩)
    (by decide)
  exact ⟨h.1, h.2.2.2.1⟩

/-! ## Game auto-detection (games/detect.rs) -/

inductive GameDetection where
  | Hzd
  | Ds
  | Mixed
  | Unknown
deriving DecidableEq

/-- The scanning loop of `detect_game`: read a `u64` magic (an EOF here —
including a trailing fragment shorter than 8 bytes — ends the loop
successfully), read a `u32` size (an error here propagates), tally the
magic against the two games' tables, and skip `size` payload bytes by
seeking.  The fuel (initialized to the stream length) only serves
termination and cannot run out before the stream does, since every
iteration consumes at least 12 bytes. -/
def detectAux : Nat → List Nat → Nat → Nat → Option (Nat × Nat)
  | 0, bs, hzd, ds => if bs.length < 8 then some (hzd, ds) else none
  | fuel + 1, bs, hzd, ds =>
    match readLE 8 bs with
    | none => some (hzd, ds)
    | some (magic, bs1) =>
      match readLE 4 bs1 with
      | none => none
      | some (size, bs2) =>
        if magic = HZD.LOCALIZED_MAGIC ∨ magic = HZD.CUTSCENE_MAGIC then
          detectAux fuel (bs2.drop size) (hzd + 1) ds
        else if magic = DS.LOCALIZED_MAGIC then
          detectAux fuel (bs2.drop size) hzd (ds + 1)
        else detectAux fuel (bs2.drop size) hzd ds

/-- `detect_game`: run the scan from zero counters, then classify:
`(hzd == 0, ds == 0)` maps to Unknown / Hzd / Ds / Mixed. -/
def detect_game (bs : List Nat) : Option GameDetection :=
  match detectAux bs.length bs 0 0 with
  | none => none
  | some (hzd, ds) =>
    some (if hzd = 0 then (if ds = 0 then GameDetection.Unknown else GameDetection.Ds)
      else (if ds = 0 then GameDetection.Hzd else GameDetection.Mixed))

/-- A chunk record as framed on disk: magic, size = payload length,
payload. -/
def mkRecord (r : Nat × List Nat) : List Nat :=
  leBytes 8 r.1 ++ leBytes 4 r.2.length ++ r.2

def recordStream (rs : List (Nat × List Nat)) : List Nat := writeList mkRecord rs

def countHzdMagic (rs : List (Nat × List Nat)) : Nat :=
  rs.countP fun r => decide (r.1 = HZD.LOCALIZED_MAGIC ∨ r.1 = HZD.CUTSCENE_MAGIC)

def countDsMagic (rs : List (Nat × List Nat)) : Nat :=
  rs.countP fun r => decide (r.1 = DS.LOCALIZED_MAGIC)

theorem detectAux_recordStream (rs : List (Nat × List Nat))
    (h : ∀ r ∈ rs, r.1 < 2 ^ 64 ∧ r.2.length < 2 ^ 32) :
    ∀ fuel, rs.length ≤ fuel → ∀ hz ds,
      detectAux fuel (recordStream rs) hz ds =
        some (hz + countHzdMagic rs, ds + countDsMagic rs) := by
  induction rs with
  | nil =>
    intro fuel _ hz ds
    match fuel with
    | 0 => rfl
    | fuel + 1 => rfl
  | cons r rs ih =>
    intro fuel hfuel hz ds
    match fuel with
    | 0 => exact absurd hfuel (by simp)
    | fuel + 1 =>
      have hr := h r (List.mem_cons_self r rs)
      have hrs : ∀ x ∈ rs, x.1 < 2 ^ 64 ∧ x.2.length < 2 ^ 32 :=
        fun x hx => h x (List.mem_cons_of_mem _ hx)
      have hstream : recordStream (r :: rs) =
          leBytes 8 r.1 ++ (leBytes 4 r.2.length ++ (r.2 ++ recordStream rs)) := by
        show mkRecord r ++ recordStream rs = _
        unfold mkRecord
        simp [List.append_assoc]
      rw [hstream]
      show (match readLE 8 (leBytes 8 r.1 ++ (leBytes 4 r.2.length ++ (r.2 ++ recordStream rs))) with
        | none => some (hz, ds)
        | some (magic, bs1) =>
          match readLE 4 bs1 with
          | none => none
          | some (size, bs2) =>
            if magic = HZD.LOCALIZED_MAGIC ∨ magic = HZD.CUTSCENE_MAGIC then
              detectAux fuel (bs2.drop size) (hz + 1) ds
            else if magic = DS.LOCALIZED_MAGIC then
              detectAux fuel (bs2.drop size) hz (ds + 1)
            else detectAux fuel (bs2.drop size) hz ds) = _
      rw [readLE_leBytes]
      dsimp only
      have h88 : r.1 % 2 ^ (8 * 8) = r.1 := by
        rw [show (8 * 8 : Nat) = 64 from by norm_num]
        exact Nat.mod_eq_of_lt hr.1
      rw [h88, readLE_leBytes]
      dsimp only
      have h84 : r.2.length % 2 ^ (8 * 4) = r.2.length := by
        rw [show (8 * 4 : Nat) = 32 from by norm_num]
        exact Nat.mod_eq_of_lt hr.2
      rw [h84, List.drop_left]
      have hfuel' : rs.length ≤ fuel := by simp at hfuel; omega
      have hcntH : countHzdMagic (r :: rs) =
          countHzdMagic rs +
            (if r.1 = HZD.LOCALIZED_MAGIC ∨ r.1 = HZD.CUTSCENE_MAGIC then 1 else 0) := by
        unfold countHzdMagic
        rw [List.countP_cons]
        by_cases hm : r.1 = HZD.LOCALIZED_MAGIC ∨ r.1 = HZD.CUTSCENE_MAGIC <;>
          simp [hm]
      have hcntD : countDsMagic (r :: rs) =
          countDsMagic rs + (if r.1 = DS.LOCALIZED_MAGIC then 1 else 0) := by
        unfold countDsMagic
        rw [List.countP_cons]
        by_cases hm : r.1 = DS.LOCALIZED_MAGIC <;> simp [hm]
      by_cases hm1 : r.1 = HZD.LOCALIZED_MAGIC ∨ r.1 = HZD.CUTSCENE_MAGIC
      · have hnotds : ¬r.1 = DS.LOCALIZED_MAGIC := by
          rcases hm1 with h1 | h1 <;>
            rw [h1] <;>
            norm_num [HZD.LOCALIZED_MAGIC, HZD.CUTSCENE_MAGIC, DS.LOCALIZED_MAGIC]
        rw [if_pos hm1, ih hrs fuel hfuel' (hz + 1) ds, hcntH, hcntD,
          if_pos hm1, if_neg hnotds]
        congr 1
        congr 1
        omega
      · rw [if_neg hm1]
        by_cases hm2 : r.1 = DS.LOCALIZED_MAGIC
        · rw [if_pos hm2, ih hrs fuel hfuel' hz (ds + 1), hcntH, hcntD,
            if_neg hm1, if_pos hm2]
          congr 1
          congr 1
          omega
        · rw [if_neg hm2, ih hrs fuel hfuel' hz ds, hcntH, hcntD,
            if_neg hm1, if_neg hm2]
          simp only [Nat.add_zero]

theorem mkRecord_length_ge (r : Nat × List Nat) : 1 ≤ (mkRecord r).length := by
  unfold mkRecord
  simp [leBytes_length]
  omega

/-- C9: on a record-aligned stream, `detect_game` looks only at each
record's magic and size (the payload contents do not appear in the
result), and classifies by the per-game magic tallies: `Unknown` when no
record's magic is in either table, the specific game when only that
game's magics occur, and `Mixed` when both games' magics occur. -/
theorem detect_game_classifies (rs : List (Nat × List Nat))
    (h : ∀ r ∈ rs, r.1 < 2 ^ 64 ∧ r.2.length < 2 ^ 32) :
    (detect_game (recordStream rs) = some GameDetection.Unknown ↔
      countHzdMagic rs = 0 ∧ countDsMagic rs = 0) ∧
    (detect_game (recordStream rs) = some GameDetection.Hzd ↔
      ¬countHzdMagic rs = 0 ∧ countDsMagic rs = 0) ∧
    (detect_game (recordStream rs) = some GameDetection.Ds ↔
      countHzdMagic rs = 0 ∧ ¬countDsMagic rs = 0) ∧
    (detect_game (recordStream rs) = some GameDetection.Mixed ↔
      ¬countHzdMagic rs = 0 ∧ ¬countDsMagic rs = 0) := by
  have hfuel : rs.length ≤ (recordStream rs).length :=
    writeList_length_ge mkRecord rs fun r _ => mkRecord_length_ge r
  have hd : detect_game (recordStream rs) =
      some (if countHzdMagic rs = 0 then
          (if countDsMagic rs = 0 then GameDetection.Unknown else GameDetection.Ds)
        else (if countDsMagic rs = 0 then GameDetection.Hzd else GameDetection.Mixed)) := by
    unfold detect_game
    rw [detectAux_recordStream rs h (recordStream rs).length hfuel 0 0]
    dsimp only
    simp only [Nat.zero_add]
  rw [hd]
  by_cases hH : countHzdMagic rs = 0 <;> by_cases hD : countDsMagic rs = 0 <;>
    simp [hH, hD]

/-- Witness for `detect_game_classifies`: one HZD-localized record plus
one unknown-magic record yields `Hzd`. -/
theorem detect_game_classifies_witness :
    (detect_game (recordStream [(HZD.LOCALIZED_MAGIC, [1, 2, 3]), (43981, [])]) =
        some GameDetection.Hzd ↔
      ¬countHzdMagic [(HZD.LOCALIZED_MAGIC, [1, 2, 3]), (43981, [])] = 0 ∧
        countDsMagic [(HZD.LOCALIZED_MAGIC, [1, 2, 3]), (43981, [])] = 0) :=
  (detect_game_classifies [(HZD.LOCALIZED_MAGIC, [1, 2, 3]), (43981, [])]
    (by decide)).2.1

/-! ## In-memory text layer

Rust `String`s at this layer are modelled by their UTF-8 byte lists
(`List Nat`), which makes `String::from(U8String)` / `U8String::from(String)`
the identity on the stored bytes.  `String::from(U16String)` /
`U16String::from(String)` transcode between UTF-8 bytes and UTF-16 code
units; the helpers below implement that transcoding (the ill-formed
fall-through arms can not arise for byte lists that denote real Rust
strings). -/

/-- Decode UTF-8 bytes to Unicode scalar values. -/
def utf8Scalars : List Nat → List Nat
  | [] => []
  | b :: bs =>
    if b < 0x80 then b :: utf8Scalars bs
    else if b < 0xE0 then
      match bs with
      | b1 :: bs1 => ((b - 0xC0) * 0x40 + (b1 - 0x80)) :: utf8Scalars bs1
      | [] => []
    else if b < 0xF0 then
      match bs with
      | b1 :: b2 :: bs2 =>
        ((b - 0xE0) * 0x1000 + (b1 - 0x80) * 0x40 + (b2 - 0x80)) :: utf8Scalars bs2
      | [_] => []
      | [] => []
    else
      match bs with
      | b1 :: b2 :: b3 :: bs3 =>
        ((b - 0xF0) * 0x40000 + (b1 - 0x80) * 0x1000 + (b2 - 0x80) * 0x40 +
          (b3 - 0x80)) :: utf8Scalars bs3
      | [_, _] => []
      | [_] => []
      | [] => []

/-- Encode Unicode scalar values as UTF-8 bytes. -/
def utf8OfScalars : List Nat → List Nat
  | [] => []
  | v :: vs =>
    (if v < 0x80 then [v]
     else if v < 0x800 then [0xC0 + v / 0x40, 0x80 + v % 0x40]
     else if v < 0x10000 then
       [0xE0 + v / 0x1000, 0x80 + v / 0x40 % 0x40, 0x80 + v % 0x40]
     else
       [0xF0 + v / 0x40000, 0x80 + v / 0x1000 % 0x40, 0x80 + v / 0x40 % 0x40,
         0x80 + v % 0x40]) ++ utf8OfScalars vs

/-- Encode Unicode scalar values as UTF-16 code units (`encode_utf16`). -/
def utf16OfScalars : List Nat → List Nat
  | [] => []
  | v :: vs =>
    (if v < 0x10000 then [v]
     else [0xD800 + (v - 0x10000) / 0x400, 0xDC00 + (v - 0x10000) % 0x400]) ++
      utf16OfScalars vs

/-- Decode UTF-16 code units to Unicode scalar values. -/
def utf16Scalars : List Nat → List Nat
  | [] => []
  | u :: us =>
    if u < 0xD800 ∨ 0xE000 ≤ u then u :: utf16Scalars us
    else
      match us with
      | u2 :: us2 => (0x10000 + (u - 0xD800) * 0x400 + (u2 - 0xDC00)) :: utf16Scalars us2
      | [] => []

/-- `U8String::from(String)` — both sides hold the same UTF-8 bytes. -/
def strToU8 (s : List Nat) : U8String := ⟨s⟩

/-- `U16String::from(String)`: the string's UTF-16 code units. -/
def strToU16 (s : List Nat) : U16String := ⟨utf16OfScalars (utf8Scalars s)⟩

/-- `String::from(U16String)` / its `Display`. -/
def u16ToStr (s : U16String) : List Nat := utf8OfScalars (utf16Scalars s.units)

/-- ASCII bytes of a (pure-ASCII) Lean string literal. -/
def asciiStr (s : String) : List Nat := s.data.map Char.toNat

/-- `BTreeSet::from_iter` over language codes of an enumeration of `n`
codes: iteration is in ascending order without duplicates. -/
def langSet (n : Nat) (ls : List Nat) : List Nat :=
  (List.range n).filter fun i => ls.contains i

/-- `concatMap f` — flattened map, used for nested line pushes. -/
def concatMap {α β : Type} (f : α → List β) : List α → List β
  | [] => []
  | x :: xs => f x ++ concatMap f xs

/-- `str::strip_prefix` on byte lists. -/
def stripPreBytes : List Nat → List Nat → Option (List Nat)
  | [], l => some l
  | _ :: _, [] => none
  | a :: p, b :: l => if a = b then stripPreBytes p l else none

/-- `str::trim_start`, restricted to ASCII whitespace (the language-name
prefixes and the strings involved here are ASCII). -/
def trimStart : List Nat → List Nat
  | [] => []
  | b :: l => if b = 32 ∨ (9 ≤ b ∧ b ≤ 13) then trimStart l else b :: l

/-- `slice::get(Range)`: `Some` exactly when `start ≤ end ≤ len`. -/
def sliceRange {α : Type} (l : List α) (start stop : Nat) : Option (List α) :=
  if start ≤ stop ∧ stop ≤ l.length then some ((l.drop start).take (stop - start))
  else none

/-- `slice::chunks_exact(k)`: consecutive pieces of exactly `k` elements,
remainder dropped.  The source asserts `k != 0` at construction (panic);
that arm cannot arise below because the language set is nonempty whenever
a cutscene entry is processed.  Fuel as elsewhere. -/
def chunksExactAux {α : Type} (k : Nat) : Nat → List α → List (List α)
  | 0, _ => []
  | fuel + 1, l =>
    if k = 0 then []
    else if l.length < k then []
    else l.take k :: chunksExactAux k fuel (l.drop k)

def chunksExact {α : Type} (k : Nat) (l : List α) : List (List α) :=
  chunksExactAux k l.length l

/-- HZD `Language` display names (`Display` = derived `Debug`). -/
def HZD.langName (code : Nat) : List Nat :=
  asciiStr (match code with
    | 0 => "English" | 1 => "French" | 2 => "Spanish" | 3 => "German"
    | 4 => "Italian" | 5 => "Dutch" | 6 => "Portuguese" | 7 => "TraditionalChinese"
    | 8 => "Korean" | 9 => "Russian" | 10 => "Polish" | 11 => "Danish"
    | 12 => "Finnish" | 13 => "Norwegian" | 14 => "Swedish" | 15 => "Japanese"
    | 16 => "LatinAmericanSpanish" | 17 => "Brazilianportuguese" | 18 => "Turkish"
    | 19 => "Arabic" | 20 => "SimplifiedChinese" | _ => "")

/-- DS `Language` display names. -/
def DS.langName (code : Nat) : List Nat :=
  asciiStr (match code with
    | 0 => "English" | 1 => "French" | 2 => "Spanish" | 3 => "German"
    | 4 => "Italian" | 5 => "Dutch" | 6 => "Portuguese" | 7 => "ChineseTraditional"
    | 8 => "Korean" | 9 => "Russian" | 10 => "Polish" | 11 => "Danish"
    | 12 => "Finnish" | 13 => "Norwegian" | 14 => "Swedish" | 15 => "Japanese"
    | 16 => "LATAMSP" | 17 => "LATAMPOR" | 18 => "Turkish" | 19 => "Arabic"
    | 20 => "ChineseSimplified" | 21 => "EnglishUk" | 22 => "Greek" | 23 => "Czech"
    | 24 => "Hungarian" | _ => "")

/-! ### HZD resource update (`HZDLocal::update_locals`, games/hzd/mod.rs)

Languages are identified by their numeric code; `FixedMap::into_iter`
yields `(Language::from(i), inner[i])` for `i = 0..LEN`, which the models
below realize by recursing over the payload lists with a running code. -/

inductive HZD.LocalVariants where
  | Localized (strings : List (List Nat))
  | Cutscene (lists : List (List (List Nat)))
deriving DecidableEq

def HZD.LocalVariants.name : HZD.LocalVariants → String
  | .Localized _ => "Localized"
  | .Cutscene _ => "Cutscene"

def HZD.ChunkVariants.name : HZD.ChunkVariants → String
  | .Localized _ => "Localized"
  | .Cutscene _ => "Cutscene"
  | .Others _ => "Others"

structure HZD.LocalResource where
  index : Nat
  variant : HZD.LocalVariants
deriving DecidableEq

inductive HZD.HZDError where
  | InvalidLocalResourceIdx (max got : Nat)
  | CutsceneLinesDoesntMatch (lang : Nat) (expected got : Nat)
  | ResourceNotMatchAtIdx (input original : String)
  | LineCountDoesntMatchWithInput (expected got : Nat)
  | InvalidIndex (max invalid_index : Nat)
deriving DecidableEq

instance : Inhabited HZD.CutsceneStringGroup := ⟨⟨0, 0, []⟩⟩

instance : Inhabited U8String := ⟨⟨[]⟩⟩

/-- The `Localized` arm of the update loop: `oloc.strings[lang] = str.into()`
for every language in order (total, no failure). -/
def HZD.setStrings (k : Nat) (strings : List U8String) :
    List (List Nat) → List U8String
  | [] => strings
  | s :: rest => HZD.setStrings (k + 1) (strings.set k (strToU8 s)) rest

/-- `csd.string = str.into()` pairwise over `iter_mut().zip(list)`,
keeping every timing value in place. -/
def HZD.setGroupStrings (g : HZD.CutsceneStringGroup) (list : List (List Nat)) :
    HZD.CutsceneStringGroup :=
  { g with strings_data :=
      List.zipWith (fun csd s => { csd with string := strToU16 s }) g.strings_data list }

/-- The `Cutscene` arm of the update loop: for each language in numeric
order, fail on a length mismatch (leaving the groups as mutated so far),
else overwrite that group's strings pairwise. -/
def HZD.applyCutscene (k : Nat) (groups : List HZD.CutsceneStringGroup) :
    List (List (List Nat)) → Option HZD.HZDError × List HZD.CutsceneStringGroup
  | [] => (none, groups)
  | list :: rest =>
    let g := groups.getD k default
    if list.length ≠ g.strings_data.length then
      (some (.CutsceneLinesDoesntMatch k g.strings_data.length list.length), groups)
    else HZD.applyCutscene (k + 1) (groups.set k (HZD.setGroupStrings g list)) rest

/-- `HZDLocal::update_locals`: apply a batch of edited local resources by
original chunk index; `&mut self` mutation is modelled by returning the
updated chunk list alongside the optional error, so state mutated before
an early `return Err(..)` remains visible. -/
def HZD.update_locals (chunks : List HZD.Chunk) :
    List HZD.LocalResource → Option HZD.HZDError × List HZD.Chunk
  | [] => (none, chunks)
  | l :: rest =>
    match chunks.get? l.index with
    | none => (some (.InvalidLocalResourceIdx chunks.length l.index), chunks)
    | some chunk =>
      match hv : l.variant, chunk.variant with
      | .Localized strs, .Localized oloc =>
        HZD.update_locals
          (chunks.set l.index
            ⟨chunk.magic, .Localized { oloc with strings := HZD.setStrings 0 oloc.strings strs }⟩)
          rest
      | .Cutscene lists, .Cutscene ocut =>
        match HZD.applyCutscene 0 ocut.list lists with
        | (some e, groups) =>
          (some e, chunks.set l.index ⟨chunk.magic, .Cutscene { ocut with list := groups }⟩)
        | (none, groups) =>
          HZD.update_locals
            (chunks.set l.index ⟨chunk.magic, .Cutscene { ocut with list := groups }⟩) rest
      | lv, cv => (some (.ResourceNotMatchAtIdx lv.name cv.name), chunks)

/-! ### Line-list serialization (games/hzd/serialize.rs, games/ds/serialize.rs) -/

inductive HZD.TxtLocalVariants where
  | Localized
  | Cutscene
deriving DecidableEq

def HZD.TxtLocalVariants.name : HZD.TxtLocalVariants → String
  | .Localized => "Localized"
  | .Cutscene => "Cutscene"

/-- Per-resource reconstruction record: original chunk index and the
half-open line range `rangeStart..rangeEnd`. -/
structure HZD.TxtLocalInfo where
  index : Nat
  rangeStart : Nat
  rangeEnd : Nat
  variant : HZD.TxtLocalVariants
deriving DecidableEq

/-- The `deinfo` sidecar envelope. -/
structure HZD.TxtDeInfo where
  languages : List Nat
  add_language_names : Bool
  count : Nat
  info : List HZD.TxtLocalInfo
deriving DecidableEq

/-- `"{lang}:: {str}"` when language names are embedded, else the string. -/
def HZD.fmtLine (addNames : Bool) (lang : Nat) (s : List Nat) : List Nat :=
  if addNames then HZD.langName lang ++ asciiStr ":: " ++ s else s

/-- The chunk loop of `HZDLocal::internal_serialize_to_lines`, carrying
the enumeration index and the running line count; returns the pushed
lines, the pushed info records, and the final count. -/
def HZD.serializeLinesGo (langs : List Nat) (addNames : Bool) :
    List HZD.Chunk → Nat → Nat → List (List Nat) × List HZD.TxtLocalInfo × Nat
  | [], _, count => ([], [], count)
  | c :: rest, index, count =>
    match c.variant with
    | .Localized loc =>
      let newLines := langs.map fun lang =>
        HZD.fmtLine addNames lang (loc.strings.getD lang default).bytes
      let inf : HZD.TxtLocalInfo := ⟨index, count, count + langs.length, .Localized⟩
      let r := HZD.serializeLinesGo langs addNames rest (index + 1) (count + langs.length)
      (newLines ++ r.1, inf :: r.2.1, r.2.2)
    | .Cutscene cut =>
      let newLines := concatMap (fun lang =>
        (cut.list.getD lang default).strings_data.map fun sd =>
          HZD.fmtLine addNames lang (u16ToStr sd.string)) langs
      let inf : HZD.TxtLocalInfo := ⟨index, count, count + newLines.length, .Cutscene⟩
      let r := HZD.serializeLinesGo langs addNames rest (index + 1) (count + newLines.length)
      (newLines ++ r.1, inf :: r.2.1, r.2.2)
    | .Others _ => HZD.serializeLinesGo langs addNames rest (index + 1) count

/-- `HZDLocal::internal_serialize_to_lines`. -/
def HZD.internal_serialize_to_lines (chunks : List HZD.Chunk) (languages : List Nat)
    (addNames : Bool) : List (List Nat) × HZD.TxtDeInfo :=
  let langs := langSet HZD.LanguageLEN languages
  let r := HZD.serializeLinesGo langs addNames chunks 0 0
  (r.1, ⟨langs, addNames, r.2.2, r.2.1⟩)

/-- Strip the `"{lang}:: "` prefix, tolerating its absence. -/
def HZD.stripLine (addNames : Bool) (lang : Nat) (line : List Nat) : List Nat :=
  if addNames then
    match stripPreBytes (HZD.langName lang ++ asciiStr ":: ") line with
    | some r => r
    | none => line
  else line

/-- The `Localized` arm of the from-lines loop:
`languages.iter().zip(lines)` writes one stripped line per language. -/
def HZD.setStringsFromLines (addNames : Bool) (strings : List U8String) :
    List (Nat × List Nat) → List U8String
  | [] => strings
  | (lang, line) :: rest =>
    HZD.setStringsFromLines addNames
      (strings.set lang (strToU8 (HZD.stripLine addNames lang line))) rest

/-- The `Cutscene` arm of the from-lines loop:
`languages.iter().zip(lines.chunks_exact(lines.len() / languages.len()))`;
a per-language piece whose length differs from that group's stored
strings fails (the `got` field is the quotient `lines.len() / languages.len()`),
else the strings are overwritten pairwise. -/
def HZD.applyCutsceneLines (addNames : Bool) (got : Nat)
    (groups : List HZD.CutsceneStringGroup) :
    List (Nat × List (List Nat)) → Option HZD.HZDError × List HZD.CutsceneStringGroup
  | [] => (none, groups)
  | (lang, piece) :: rest =>
    let g := groups.getD lang default
    if piece.length ≠ g.strings_data.length then
      (some (.CutsceneLinesDoesntMatch lang g.strings_data.length got), groups)
    else
      HZD.applyCutsceneLines addNames got
        (groups.set lang
          { g with strings_data :=
              (List.zipWith
                (fun csd line =>
                  { csd with string := strToU16 (HZD.stripLine addNames lang line) })
                g.strings_data piece) })
        rest

/-- The per-info-record loop of
`HZDLocal::internal_deserialize_and_update_from_lines`. -/
def HZD.fromLinesGo (lines : List (List Nat)) (langs : List Nat) (addNames : Bool)
    (chunks : List HZD.Chunk) :
    List HZD.TxtLocalInfo → Option HZD.HZDError × List HZD.Chunk
  | [] => (none, chunks)
  | inf :: rest =>
    match chunks.get? inf.index with
    | none => (some (.InvalidLocalResourceIdx chunks.length inf.index), chunks)
    | some chunk =>
      match sliceRange lines inf.rangeStart inf.rangeEnd with
      | none => (some (.InvalidIndex lines.length inf.index), chunks)
      | some slice =>
        match inf.variant, chunk.variant with
        | .Localized, .Localized oloc =>
          HZD.fromLinesGo lines langs addNames
            (chunks.set inf.index
              ⟨chunk.magic, .Localized
                { oloc with strings :=
                    HZD.setStringsFromLines addNames oloc.strings (langs.zip slice) }⟩)
            rest
        | .Cutscene, .Cutscene ocut =>
          let pieceLen := slice.length / langs.length
          match HZD.applyCutsceneLines addNames pieceLen ocut.list
            (langs.zip (chunksExact pieceLen slice)) with
          | (some e, groups) =>
            (some e, chunks.set inf.index ⟨chunk.magic, .Cutscene { ocut with list := groups }⟩)
          | (none, groups) =>
            HZD.fromLinesGo lines langs addNames
              (chunks.set inf.index ⟨chunk.magic, .Cutscene { ocut with list := groups }⟩)
              rest
        | iv, cv =>
          (some (.ResourceNotMatchAtIdx iv.name (HZD.ChunkVariants.name cv)), chunks)

/-- `HZDLocal::internal_deserialize_and_update_from_lines`: the literal
line count must equal the envelope's recorded count before anything is
touched. -/
def HZD.internal_deserialize_and_update_from_lines (chunks : List HZD.Chunk)
    (lines : List (List Nat)) (deinfo : HZD.TxtDeInfo) :
    Option HZD.HZDError × List HZD.Chunk :=
  if lines.length ≠ deinfo.count then
    (some (.LineCountDoesntMatchWithInput deinfo.count lines.length), chunks)
  else
    HZD.fromLinesGo lines deinfo.languages deinfo.add_language_names chunks deinfo.info

/-! DS line-list serialization. -/

inductive DS.DSError where
  | InvalidLocalResourceIdx (max got : Nat)
  | ResourceNotMatchAtIdx (input original : String)
  | LineCountDoesntMatchWithInput (expected got : Nat)
  | InvalidIndex (max invalid_index : Nat)
deriving DecidableEq

structure DS.TxtLocalInfo where
  index : Nat
  rangeStart : Nat
  rangeEnd : Nat
deriving DecidableEq

structure DS.TxtDeInfo where
  languages : List Nat
  add_language_names : Bool
  count : Nat
  info : List DS.TxtLocalInfo
deriving DecidableEq

instance : Inhabited DS.LocalGroup := ⟨⟨⟨[]⟩, ⟨[]⟩, 0⟩⟩

def DS.fmtLine (addNames : Bool) (lang : Nat) (s : List Nat) : List Nat :=
  if addNames then DS.langName lang ++ asciiStr ":: " ++ s else s

/-- The per-language inner loop of `DSLocal::internal_serialize_to_lines`
for one Localized chunk.  NOTE: faithfully to the source, the `info` push
and the `count += languages.len()` increment sit INSIDE this per-language
loop (unlike the HZD sibling, where they run once per chunk). -/
def DS.serializeLangsGo (loc : DS.Localized) (addNames : Bool) (index : Nat)
    (total : Nat) :
    List Nat → Nat → List (List Nat) × List DS.TxtLocalInfo × Nat
  | [], count => ([], [], count)
  | lang :: ls, count =>
    let line := DS.fmtLine addNames lang (loc.string_groups.getD lang default).text.bytes
    let inf : DS.TxtLocalInfo := ⟨index, count, count + total⟩
    let r := DS.serializeLangsGo loc addNames index total ls (count + total)
    (line :: r.1, inf :: r.2.1, r.2.2)

def DS.serializeLinesGo (langs : List Nat) (addNames : Bool) :
    List DS.Chunk → Nat → Nat → List (List Nat) × List DS.TxtLocalInfo × Nat
  | [], _, count => ([], [], count)
  | c :: rest, index, count =>
    match c.variant with
    | .Localized loc =>
      let r1 := DS.serializeLangsGo loc addNames index langs.length langs count
      let r := DS.serializeLinesGo langs addNames rest (index + 1) r1.2.2
      (r1.1 ++ r.1, r1.2.1 ++ r.2.1, r.2.2)
    | .Others _ => DS.serializeLinesGo langs addNames rest (index + 1) count

/-- `DSLocal::internal_serialize_to_lines`. -/
def DS.internal_serialize_to_lines (chunks : List DS.Chunk) (languages : List Nat)
    (addNames : Bool) : List (List Nat) × DS.TxtDeInfo :=
  let langs := langSet DS.LanguageLEN languages
  let r := DS.serializeLinesGo langs addNames chunks 0 0
  (r.1, ⟨langs, addNames, r.2.2, r.2.1⟩)

/-- Strip `"{lang}::"` then trim leading whitespace (DS strips thebare
`"::"` prefix and trims, unlike HZD's `":: "`). -/
def DS.stripLine (addNames : Bool) (lang : Nat) (line : List Nat) : List Nat :=
  if addNames then
    trimStart (match stripPreBytes (DS.langName lang ++ asciiStr "::") line with
      | some r => r
      | none => line)
  else line

def DS.setStringsFromLines (addNames : Bool) (groups : List DS.LocalGroup) :
    List (Nat × List Nat) → List DS.LocalGroup
  | [] => groups
  | (lang, line) :: rest =>
    let g := groups.getD lang default
    DS.setStringsFromLines addNames
      (groups.set lang { g with text := strToU8 (DS.stripLine addNames lang line) }) rest

/-- The per-info-record loop of
`DSLocal::internal_deserialize_and_update_from_lines`.  (The source also
`assert_eq!`s the slice length against the language count — a panic, not
an error value — which is not modelled; it cannot fire for envelopes the
serializer produces with a single language.) -/
def DS.fromLinesGo (lines : List (List Nat)) (langs : List Nat) (addNames : Bool)
    (chunks : List DS.Chunk) :
    List DS.TxtLocalInfo → Option DS.DSError × List DS.Chunk
  | [] => (none, chunks)
  | inf :: rest =>
    match chunks.get? inf.index with
    | none => (some (.InvalidLocalResourceIdx chunks.length inf.index), chunks)
    | some chunk =>
      match chunk.variant with
      | .Localized oloc =>
        match sliceRange lines inf.rangeStart inf.rangeEnd with
        | none => (some (.InvalidIndex lines.length inf.index), chunks)
        | some slice =>
          DS.fromLinesGo lines langs addNames
            (chunks.set inf.index
              ⟨chunk.magic, .Localized
                { oloc with string_groups :=
                    DS.setStringsFromLines addNames oloc.string_groups (langs.zip slice) }⟩)
            rest
      | .Others _ =>
        (some (.ResourceNotMatchAtIdx "Localized" "Others"), chunks)

/-- `DSLocal::internal_deserialize_and_update_from_lines`. -/
def DS.internal_deserialize_and_update_from_lines (chunks : List DS.Chunk)
    (lines : List (List Nat)) (deinfo : DS.TxtDeInfo) :
    Option DS.DSError × List DS.Chunk :=
  if lines.length ≠ deinfo.count then
    (some (.LineCountDoesntMatchWithInput deinfo.count lines.length), chunks)
  else
    DS.fromLinesGo lines deinfo.languages deinfo.add_language_names chunks deinfo.info

/-! ## C3, C4, C5, C7 -/

theorem getD_set_ne {α : Type} [Inhabited α] (l : List α) (i j : Nat) (a : α)
    (h : i ≠ j) : (l.set i a).getD j default = l.getD j default := by
  simp [List.getD, List.getElem?_set_ne h]

/-- A single-chunk DS state used to exhibit the envelope-count bug. -/
def dsBugChunks : List DS.Chunk :=
  [⟨DS.LOCALIZED_MAGIC,
    DS.ChunkVariants.Localized ⟨List.replicate 16 0, List.replicate 25 default⟩⟩]

/-- The HZD sibling state for contrast. -/
def hzdBugChunks : List HZD.Chunk :=
  [⟨HZD.LOCALIZED_MAGIC,
    HZD.ChunkVariants.Localized ⟨List.replicate 16 0, List.replicate 21 default⟩⟩]

/-- C3, failing input: DS line-list export of one Localized chunk with two
selected languages produces 2 lines but records count 4 in the envelope,
with two overlapping per-resource ranges — the `info.push` and the
`count += languages.len()` sit inside the per-language loop.  The HZD
implementation on the analogous state records count = number of lines. -/
theorem ds_serialize_lines_count_bug :
    (DS.internal_serialize_to_lines dsBugChunks [0, 1] false).1.length = 2 ∧
    (DS.internal_serialize_to_lines dsBugChunks [0, 1] false).2.count = 4 ∧
    (DS.internal_serialize_to_lines dsBugChunks [0, 1] false).2.info.map
        (fun i => (i.index, i.rangeStart, i.rangeEnd)) = [(0, 0, 2), (0, 2, 4)] ∧
    (HZD.internal_serialize_to_lines hzdBugChunks [0, 1] false).1.length =
      (HZD.internal_serialize_to_lines hzdBugChunks [0, 1] false).2.count := by
  decide

/-- C4: a line-list import whose input line count differs from the
envelope's recorded count fails with the line-count-mismatch error
(carrying expected = recorded count, got = input count) and returns the
game state completely unchanged, for both games. -/
theorem from_lines_count_mismatch
    (hchunks : List HZD.Chunk) (hlines : List (List Nat)) (hdeinfo : HZD.TxtDeInfo)
    (dchunks : List DS.Chunk) (dlines : List (List Nat)) (ddeinfo : DS.TxtDeInfo)
    (hne : hlines.length ≠ hdeinfo.count) (dne : dlines.length ≠ ddeinfo.count) :
    HZD.internal_deserialize_and_update_from_lines hchunks hlines hdeinfo =
      (some (.LineCountDoesntMatchWithInput hdeinfo.count hlines.length), hchunks) ∧
    DS.internal_deserialize_and_update_from_lines dchunks dlines ddeinfo =
      (some (.LineCountDoesntMatchWithInput ddeinfo.count dlines.length), dchunks) := by
  unfold HZD.internal_deserialize_and_update_from_lines
    DS.internal_deserialize_and_update_from_lines
  rw [if_pos hne, if_pos dne]
  exact ⟨rfl, rfl⟩

/-- Witness for `from_lines_count_mismatch`: empty input against an
envelope recording one line. -/
theorem from_lines_count_mismatch_witness :
    HZD.internal_deserialize_and_update_from_lines hzdBugChunks []
        ⟨[0], false, 1, []⟩ =
      (some (.LineCountDoesntMatchWithInput 1 0), hzdBugChunks) ∧
    DS.internal_deserialize_and_update_from_lines dsBugChunks []
        ⟨[0], false, 1, []⟩ =
      (some (.LineCountDoesntMatchWithInput 1 0), dsBugChunks) :=
  from_lines_count_mismatch hzdBugChunks [] ⟨[0], false, 1, []⟩
    dsBugChunks [] ⟨[0], false, 1, []⟩ (by decide) (by decide)

/-- Behaviour of the cutscene update loop at the first mismatching
language: the reported error carries the first mismatching code `k + j`
with the stored (expected) and supplied (got) counts, and every group at
or after that code is left exactly as it was. -/
theorem applyCutscene_mismatch :
    ∀ (j k : Nat) (groups : List HZD.CutsceneStringGroup)
      (lists : List (List (List Nat))),
      j < lists.length →
      (∀ i, i < j →
        (lists.getD i []).length = (groups.getD (k + i) default).strings_data.length) →
      (lists.getD j []).length ≠ (groups.getD (k + j) default).strings_data.length →
      (HZD.applyCutscene k groups lists).1 =
          some (.CutsceneLinesDoesntMatch (k + j)
            (groups.getD (k + j) default).strings_data.length (lists.getD j []).length) ∧
        ∀ m, k + j ≤ m →
          (HZD.applyCutscene k groups lists).2.getD m default = groups.getD m default := by
  intro j
  induction j with
  | zero =>
    intro k groups lists hj hpre hmis
    match lists with
    | [] => simp at hj
    | list :: rest =>
      simp only [List.getD_cons_zero, Nat.add_zero] at hmis
      simp only [HZD.applyCutscene, if_pos hmis]
      refine ⟨?_, fun m _ => trivial⟩
      simp [Nat.add_zero]
  | succ j ih =>
    intro k groups lists hj hpre hmis
    match lists with
    | [] => simp at hj
    | list :: rest =>
      have h0 : list.length = (groups.getD k default).strings_data.length := by
        have := hpre 0 (Nat.succ_pos j)
        simpa using this
      have hnot : ¬list.length ≠ (groups.getD k default).strings_data.length :=
        fun hne => hne h0
      simp only [HZD.applyCutscene, if_neg hnot]
      set g' := HZD.setGroupStrings (groups.getD k default) list with hg'
      set groups' := groups.set k g' with hgroups'
      have hset : ∀ m, k + 1 ≤ m → groups'.getD m default = groups.getD m default := by
        intro m hm
        exact getD_set_ne groups k m g' (by omega)
      have hpre' : ∀ i, i < j →
          (rest.getD i []).length = (groups'.getD (k + 1 + i) default).strings_data.length := by
        intro i hi
        rw [hset (k + 1 + i) (by omega)]
        have harg : k + 1 + i = k + (i + 1) := by omega
        rw [harg]
        have := hpre (i + 1) (by omega)
        simp only [List.getD_cons_succ] at this
        exact this
      have hmis' : (rest.getD j []).length ≠
          (groups'.getD (k + 1 + j) default).strings_data.length := by
        rw [hset (k + 1 + j) (by omega)]
        have heq : k + 1 + j = k + (j + 1) := by omega
        rw [heq]
        simpa using hmis
      obtain ⟨herr, hstate⟩ := ih (k + 1) groups' rest (by simpa using hj) hpre' hmis'
      constructor
      · rw [herr, hset (k + 1 + j) (by omega)]
        have heq : k + 1 + j = k + (j + 1) := by omega
        rw [heq]
        simp
      · intro m hm
        rw [hstate m (by omega), hset m (by omega)]

/-- C7: updating a Cutscene resource whose supplied per-language list for
language `ℓ` has a different length from the stored one (all languages
before `ℓ` matching) fails with `CutsceneLinesDoesntMatch` carrying that
language, the stored (expected) count, and the supplied (got) count. -/
theorem update_locals_cutscene_mismatch (chunks : List HZD.Chunk) (idx magic : Nat)
    (cut : HZD.Cutscene) (lists : List (List (List Nat))) (l : Nat)
    (hchunk : chunks.get? idx = some ⟨magic, HZD.ChunkVariants.Cutscene cut⟩)
    (hj : l < lists.length)
    (hpre : ∀ i, i < l →
      (lists.getD i []).length = (cut.list.getD i default).strings_data.length)
    (hmis : (lists.getD l []).length ≠ (cut.list.getD l default).strings_data.length) :
    (HZD.update_locals chunks [⟨idx, HZD.LocalVariants.Cutscene lists⟩]).1 =
      some (.CutsceneLinesDoesntMatch l
        (cut.list.getD l default).strings_data.length (lists.getD l []).length) := by
  have hac := applyCutscene_mismatch l 0 cut.list lists hj
    (by intro i hi; simpa using hpre i hi) (by simpa using hmis)
  simp only [Nat.zero_add] at hac
  simp only [HZD.update_locals, hchunk]
  match hra : HZD.applyCutscene 0 cut.list lists with
  | (some e, groups) =>
    rw [hra] at hac
    dsimp only
    injection hac.1 with he
    rw [← he]
  | (none, groups) =>
    rw [hra] at hac
    exact absurd hac.1 (by simp)

/-- Witness for `update_locals_cutscene_mismatch`: a cutscene with an
empty English line list updated with one English line. -/
def c7Chunks : List HZD.Chunk :=
  [⟨HZD.CUTSCENE_MAGIC,
    HZD.ChunkVariants.Cutscene
      ⟨List.replicate 16 0, 0, List.replicate 4 0, 21, List.replicate 21 default,
        List.replicate 5 0⟩⟩]

theorem update_locals_cutscene_mismatch_witness :
    (HZD.update_locals c7Chunks [⟨0, HZD.LocalVariants.Cutscene [[[88]]]⟩]).1 =
      some (.CutsceneLinesDoesntMatch 0 0 1) := by
  have h := update_locals_cutscene_mismatch c7Chunks 0 HZD.CUTSCENE_MAGIC
    ⟨List.replicate 16 0, 0, List.replicate 4 0, 21, List.replicate 21 default,
      List.replicate 5 0⟩
    [[[88]]] 0 (by decide) (by decide) (by intro i hi; omega) (by decide)
  simpa using h

/-- A cutscene state whose English (0) and French (1) groups each hold one
line. -/
def c5Chunks : List HZD.Chunk :=
  [⟨HZD.CUTSCENE_MAGIC,
    HZD.ChunkVariants.Cutscene
      ⟨List.replicate 16 0, 0, List.replicate 4 0, 21,
        ⟨0, 1, [⟨⟨[97]⟩, 5⟩]⟩ :: ⟨1, 1, [⟨⟨[98]⟩, 6⟩]⟩ :: List.replicate 19 default,
        List.replicate 5 0⟩⟩]

/-- An update whose English list matches (one line) but whose French list
has two lines against one stored. -/
def c5Payload : HZD.LocalResource :=
  ⟨0, HZD.LocalVariants.Cutscene [[[88]], [[89], [90]]]⟩

/-- C5, counterexample: the failing call reports the French mismatch but
has already overwritten the English string of the same resource — the
resource is NOT left entirely unmodified. -/
theorem update_locals_not_atomic :
    (HZD.update_locals c5Chunks [c5Payload]).1 =
      some (.CutsceneLinesDoesntMatch 1 1 2) ∧
    (HZD.update_locals c5Chunks [c5Payload]).2 ≠ c5Chunks := by
  decide

/-- C5 (amended): when updating a single Cutscene resource fails with a
per-language length mismatch at language `ℓ` (languages before `ℓ`
matching), the state after the call has that chunk's groups at `ℓ` and at
every later language exactly as they were before the call; only languages
strictly before `ℓ` may have been overwritten. -/
theorem update_locals_cutscene_partial (chunks : List HZD.Chunk) (idx magic : Nat)
    (cut : HZD.Cutscene) (lists : List (List (List Nat))) (l : Nat)
    (hchunk : chunks.get? idx = some ⟨magic, HZD.ChunkVariants.Cutscene cut⟩)
    (hj : l < lists.length)
    (hpre : ∀ i, i < l →
      (lists.getD i []).length = (cut.list.getD i default).strings_data.length)
    (hmis : (lists.getD l []).length ≠ (cut.list.getD l default).strings_data.length) :
    ∃ groups,
      HZD.update_locals chunks [⟨idx, HZD.LocalVariants.Cutscene lists⟩] =
        (some (.CutsceneLinesDoesntMatch l
            (cut.list.getD l default).strings_data.length (lists.getD l []).length),
          chunks.set idx ⟨magic, HZD.ChunkVariants.Cutscene { cut with list := groups }⟩) ∧
      ∀ m, l ≤ m → groups.getD m default = cut.list.getD m default := by
  have hac := applyCutscene_mismatch l 0 cut.list lists hj
    (by intro i hi; simpa using hpre i hi) (by simpa using hmis)
  simp only [Nat.zero_add] at hac
  simp only [HZD.update_locals, hchunk]
  match hra : HZD.applyCutscene 0 cut.list lists with
  | (some e, groups) =>
    rw [hra] at hac
    refine ⟨groups, ?_, fun m hm => hac.2 m hm⟩
    dsimp only
    injection hac.1 with he
    rw [← he]
  | (none, groups) =>
    rw [hra] at hac
    exact absurd hac.1 (by simp)

/-- Witness for `update_locals_cutscene_partial` at the concrete
`c5Chunks`/`c5Payload` input. -/
theorem update_locals_cutscene_partial_witness :
    ∃ groups,
      HZD.update_locals c5Chunks [⟨0, HZD.LocalVariants.Cutscene [[[88]], [[89], [90]]]⟩] =
        (some (.CutsceneLinesDoesntMatch 1 1 2),
          c5Chunks.set 0 ⟨HZD.CUTSCENE_MAGIC,
            HZD.ChunkVariants.Cutscene
              { uuid := List.replicate 16 0, useless_block_len := 0,
                useless_block := List.replicate 4 0, lang_count := 21,
                list := groups, unk := List.replicate 5 0 }⟩) ∧
      ∀ m, 1 ≤ m →
        groups.getD m default =
          (⟨0, 1, [⟨⟨[97]⟩, 5⟩]⟩ :: ⟨1, 1, [⟨⟨[98]⟩, 6⟩]⟩ ::
            List.replicate 19 default).getD m default := by
  have h := update_locals_cutscene_partial c5Chunks 0 HZD.CUTSCENE_MAGIC
    ⟨List.replicate 16 0, 0, List.replicate 4 0, 21,
      ⟨0, 1, [⟨⟨[97]⟩, 5⟩]⟩ :: ⟨1, 1, [⟨⟨[98]⟩, 6⟩]⟩ :: List.replicate 19 default,
      List.replicate 5 0⟩
    [[[88]], [[89], [90]]] 1 (by decide) (by decide)
    (by intro i hi; interval_cases i <;> decide) (by decide)
  simpa using h

end DLoc
